import Mathlib

set_option maxRecDepth 40000

/-!
Verification of the block-snapshot / Markdown adapter layer and the
fractional-indexing ordering primitive of the AFFiNE repository.

The adapter implementation (`MarkdownAdapter.fromBlockSnapshot`,
`fromDocSnapshot`, `toBlockSnapshot`) and the key generator
(`generateKeyBetween`, re-exported from the `fractional-indexing` package)
are not part of the source tree itself; only their unit tests and
re-export sites are.  Following the specification (spec.md §3, §4.1, §4.5,
§4.6, §8), the definitions below are therefore modelled from the spec's
description of the data model and of the export/import rules, and are
checked against the concrete input/output pairs recorded in
`src/blocksuite/affine/all/src/__tests__/adapters/markdown.unit.spec.ts`.

All recursive functions are written with explicit fuel so that every
definition reduces definitionally on concrete inputs.
-/

/-- A JSON-like value, used for block property values and for the structured
payloads carried by atomic delta attributes (footnote, reference). -/
inductive JVal where
  | s (v : String)
  | i (v : Int)
  | b (v : Bool)
  | null
  | arr (vs : List JVal)
  | obj (kvs : List (String × JVal))

/-- One run of a rich-text delta: an inserted string plus an attribute map
(spec.md §3 "Rich Text Delta").  An absent attribute map is the empty list. -/
structure DeltaInsert where
  insert : String
  attrs : List (String × JVal)

/-- A block property value: either a plain JSON value or a rich-text delta
payload (the `$blocksuite:internal:text$` shape of the snapshot JSON). -/
inductive PVal where
  | v (j : JVal)
  | txt (delta : List DeltaInsert)

/-- A block snapshot node (spec.md §3, §6 "Snapshot JSON shape"):
id, flavour, ordered property map, ordered children. -/
inductive BlockSnapshot where
  | mk (id : String) (flavour : String) (props : List (String × PVal))
      (children : List BlockSnapshot)

def BlockSnapshot.id : BlockSnapshot → String
  | .mk i _ _ _ => i

def BlockSnapshot.flavour : BlockSnapshot → String
  | .mk _ f _ _ => f

def BlockSnapshot.props : BlockSnapshot → List (String × PVal)
  | .mk _ _ p _ => p

def BlockSnapshot.children : BlockSnapshot → List BlockSnapshot
  | .mk _ _ _ c => c

/-- A document snapshot: page meta (id, title) plus the root page block
(spec.md §6: `DocSnapshot` wraps `meta` and `blocks`). -/
structure DocSnapshot where
  docId : String
  title : String
  blocks : BlockSnapshot

/-- Ordered association-list lookup (property and attribute maps are
insertion-ordered, like the JSON objects they model). -/
def alookup {α : Type} (k : String) : List (String × α) → Option α
  | [] => none
  | (k2, v) :: rest => if k2 = k then some v else alookup k rest

/-- Spaces for indentation. -/
def spaces (n : Nat) : List Char := List.replicate n ' '

/-- Join chunks with a separator. -/
def joinSepC (sep : List Char) : List (List Char) → List Char
  | [] => []
  | [x] => x
  | x :: xs => x ++ sep ++ joinSepC sep xs

/-- Decimal digits of a natural number (fuelled). -/
def natCharsF : Nat → Nat → List Char
  | 0, _ => []
  | f + 1, n =>
    if n < 10 then [Char.ofNat (48 + n)]
    else natCharsF f (n / 10) ++ [Char.ofNat (48 + n % 10)]

def natChars (n : Nat) : List Char := natCharsF 30 n

/-- Uppercase hexadecimal digit. -/
def hexCh (n : Nat) : Char :=
  if n < 10 then Char.ofNat (48 + n) else Char.ofNat (55 + n)

/-- Modelled from the spec: the URL fields of a footnote/reference payload
are url-encoded on export (spec.md §4.5 "JSON-encoded reference payload with
url-encoded URL fields"); this models JavaScript `encodeURIComponent` for
the ASCII range. -/
def encodeURIComponentC : List Char → List Char
  | [] => []
  | c :: rest =>
    let keep := c.isAlpha || c.isDigit ||
      ['-', '_', '.', '!', '~', '*', '(', ')'].contains c || c = Char.ofNat 39
    (if keep then [c]
     else ['%', hexCh (c.toNat / 16), hexCh (c.toNat % 16)]) ++
      encodeURIComponentC rest

/-- JSON string literal (the payloads in scope contain no characters that
JSON requires to be escaped). -/
def jsonStr (s : List Char) : List Char := '"' :: (s ++ ['"'])

/-- Encode one field value of a reference payload; `url`-named fields are
percent-encoded first. -/
def refFieldVal (k : String) (v : JVal) : List Char :=
  match v with
  | .s sv => if k = "url" then jsonStr (encodeURIComponentC sv.data) else jsonStr sv.data
  | .i n => natChars n.toNat
  | .b true => "true".data
  | .b false => "false".data
  | _ => []

/-- JSON-encode a reference payload object, keys in insertion order. -/
def refObjEncode (kvs : List (String × JVal)) : List Char :=
  '{' :: joinSepC [','] (kvs.map (fun kv => jsonStr kv.1.data ++ (':' :: refFieldVal kv.1 kv.2))) ++ ['}']

/-- Modelled from the spec: Markdown text for one delta run on export
(spec.md §4.5 "Inline atomic attributes").  Returns the inline text and the
footnote definition lines generated by this run. -/
def runExport (r : DeltaInsert) : List Char × List (List Char) :=
  match alookup "footnote" r.attrs with
  | some (.obj kvs) =>
    let label := match alookup "label" kvs with
      | some (.s l) => l.data
      | _ => []
    let refk := match alookup "reference" kvs with
      | some (.obj rkvs) => rkvs
      | _ => []
    let txt := '[' :: '^' :: (label ++ [']'])
    (txt, [txt ++ (':' :: ' ' :: refObjEncode refk)])
  | _ =>
  match alookup "strike" r.attrs with
  | some (.b true) => ('~' :: '~' :: (r.insert.data ++ ['~', '~']), [])
  | _ =>
  match alookup "latex" r.attrs with
  | some (.s l) => ('$' :: (l.data ++ ['$']), [])
  | _ => (r.insert.data, [])

/-- Markdown text of a whole delta, with collected footnote definitions. -/
def deltaExport : List DeltaInsert → List Char × List (List Char)
  | [] => ([], [])
  | r :: rest =>
    let (t, d) := runExport r
    let (ts, ds) := deltaExport rest
    (t ++ ts, d ++ ds)

/-- Text delta of a block, empty when absent. -/
def blockDelta (b : BlockSnapshot) : List DeltaInsert :=
  match alookup "text" b.props with
  | some (.txt d) => d
  | _ => []

/-- The `type` prop of a block, with a default. -/
def blockType (dflt : String) (b : BlockSnapshot) : String :=
  match alookup "type" b.props with
  | some (.v (.s t)) => t
  | _ => dflt

/-- Heading marker for a paragraph `type` prop. -/
def headingMark (ty : String) : List Char :=
  if ty = "h1" then "# ".data
  else if ty = "h2" then "## ".data
  else if ty = "h3" then "### ".data
  else if ty = "h4" then "#### ".data
  else if ty = "h5" then "##### ".data
  else if ty = "h6" then "###### ".data
  else []

/-- Longest run of backquotes in code content. -/
def maxTickRun : List Char → Nat → Nat → Nat
  | [], cur, best => max cur best
  | c :: rest, cur, best =>
    if c = Char.ofNat 96 then maxTickRun rest (cur + 1) best
    else maxTickRun rest 0 (max cur best)

/-- Modelled from the spec: code fence length exceeds the longest backquote
run in the content (spec.md §4.5 "Code blocks"), minimum three. -/
def fenceOf (content : List Char) : List Char :=
  List.replicate (max 3 (maxTickRun content 0 0 + 1)) (Char.ofNat 96)

/-- The content blocks of a page root: drop the surface child and splice the
children of every note (the adapter renders the body of the page's notes). -/
def contentBlocks (root : BlockSnapshot) : List BlockSnapshot :=
  (root.children.filter (fun b => b.flavour ≠ "affine:surface")).flatMap
    (fun b => if b.flavour = "affine:note" then b.children else [b])

mutual

/-- Modelled from the spec: lines of one list item and its nested items,
two spaces of indentation per level, canonical markers `* `, `* [ ] ` /
`* [x] `, and `order`-prop-driven numbers (spec.md §4.5 "List markers"). -/
def renderItemLines : Nat → Nat → Nat → BlockSnapshot → List (List Char)
  | 0, _, _, _ => []
  | f + 1, depth, pos, b =>
    let ty := blockType "bulleted" b
    let checked := match alookup "checked" b.props with
      | some (.v (.b c)) => c
      | _ => false
    let txt := (deltaExport (blockDelta b)).1
    let marker : List Char :=
      if ty = "todo" then (if checked then "* [x] ".data else "* [ ] ".data)
      else if ty = "numbered" then
        let n := match alookup "order" b.props with
          | some (.v (.i m)) => m.toNat
          | _ => pos
        natChars n ++ ('.' :: [' '])
      else "* ".data
    (spaces (2 * depth) ++ marker ++ txt) :: renderItemsLines f (depth + 1) 1 b.children

def renderItemsLines : Nat → Nat → Nat → List BlockSnapshot → List (List Char)
  | 0, _, _, _ => []
  | _ + 1, _, _, [] => []
  | f + 1, depth, pos, b :: rest =>
    renderItemLines f depth pos b ++ renderItemsLines f depth (pos + 1) rest

/-- Modelled from the spec: a nested paragraph renders as its own chunk with
an `&#x20;`-escaped indent (spec.md §4.5, first export rule). -/
def renderParaTree : Nat → Nat → BlockSnapshot → List (List Char) × List (List Char)
  | 0, _, _ => ([], [])
  | f + 1, depth, b =>
    let ty := blockType "text" b
    let (txt, defs) := deltaExport (blockDelta b)
    let pre : List Char :=
      if depth = 0 then [] else "&#x20;".data ++ spaces (4 * depth - 1)
    let (childCs, childDs) := renderParaList f (depth + 1) b.children
    ((pre ++ headingMark ty ++ txt) :: childCs, defs ++ childDs)

def renderParaList : Nat → Nat → List BlockSnapshot → List (List Char) × List (List Char)
  | 0, _, _ => ([], [])
  | _ + 1, _, [] => ([], [])
  | f + 1, depth, b :: rest =>
    let (cs, ds) := renderParaTree f depth b
    let (cs2, ds2) := renderParaList f depth rest
    (cs ++ cs2, ds ++ ds2)

/-- Modelled from the spec: Markdown chunks of one non-list content block.
`depth` is the remaining synced-doc expansion budget: an
`affine:embed-synced-doc` block inlines the target document's rendered
Markdown while budget remains and only the target's title once it is
exhausted (spec.md §4.5 "Embedded/linked/synced-doc blocks", with the
bound observed in the adapter test: a synced doc nested inside an expanded
synced doc exports only its title). -/
def renderOneBlock : Nat → List DocSnapshot → Nat → BlockSnapshot → List (List Char) × List (List Char)
  | 0, _, _, _ => ([], [])
  | f + 1, env, depth, b =>
    if b.flavour = "affine:paragraph" then
      renderParaTree f 0 b
    else if b.flavour = "affine:code" then
      let lang := match alookup "language" b.props with
        | some (.v (.s l)) => l.data
        | _ => []
      let content := (deltaExport (blockDelta b)).1
      let fence := fenceOf content
      ([fence ++ lang ++ ('\n' :: content) ++ ('\n' :: fence)], [])
    else if b.flavour = "affine:embed-synced-doc" then
      let pid := match alookup "pageId" b.props with
        | some (.v (.s p)) => p
        | _ => ""
      match env.find? (fun d => d.docId = pid) with
      | none => ([], [])
      | some target =>
        match depth with
        | 0 => ([target.title.data], [])
        | d + 1 => ([joinSepC "\n\n".data (renderDocChunks f env d target)], [])
    else ([], [])

def renderBlocksC : Nat → List DocSnapshot → Nat → List BlockSnapshot → List (List Char) × List (List Char)
  | 0, _, _, _ => ([], [])
  | _ + 1, _, _, [] => ([], [])
  | f + 1, env, depth, b :: rest =>
    if b.flavour = "affine:list" then
      let run := b :: rest.takeWhile (fun x => x.flavour = "affine:list")
      let rest2 := rest.dropWhile (fun x => x.flavour = "affine:list")
      let chunk := joinSepC ['\n'] (renderItemsLines f 0 1 run)
      let (cs, ds) := renderBlocksC f env depth rest2
      (chunk :: cs, ds)
    else
      let (selfCs, selfDs) := renderOneBlock f env depth b
      let (cs, ds) := renderBlocksC f env depth rest
      (selfCs ++ cs, selfDs ++ ds)

/-- Markdown chunks of a whole document: `# title` followed by the body. -/
def renderDocChunks : Nat → List DocSnapshot → Nat → DocSnapshot → List (List Char)
  | 0, _, _, _ => []
  | f + 1, env, depth, doc =>
    let (cs, ds) := renderBlocksC f env depth (contentBlocks doc.blocks)
    ("# ".data ++ doc.title.data) :: (cs ++ ds)

end

/-- Modelled from the spec: `MarkdownAdapter.fromBlockSnapshot` — export a
block snapshot (rooted at a page, a note, or a single block) to Markdown
(spec.md §4.5 Export). -/
def fromBlockSnapshot (s : BlockSnapshot) : String :=
  let body :=
    if s.flavour = "affine:page" then contentBlocks s
    else if s.flavour = "affine:note" then s.children
    else [s]
  let (cs, ds) := renderBlocksC 1000 [] 0 body
  String.mk (joinSepC "\n\n".data (cs ++ ds) ++ ['\n'])

/-- Modelled from the spec: `MarkdownAdapter.fromDocSnapshot` with the
`embedSyncedDocMiddleware('content')` middleware installed: the document
title becomes a `#` heading and synced-doc embeds are expanded with budget
one (spec.md §4.5 Export, §4.6). -/
def fromDocSnapshot (env : List DocSnapshot) (doc : DocSnapshot) : String :=
  String.mk (joinSepC "\n\n".data (renderDocChunks 1000 env 1 doc) ++ ['\n'])

/-- Plain text run. -/
def tIns (s : String) : DeltaInsert := ⟨s, []⟩

def textProp (runs : List DeltaInsert) : String × PVal := ("text", .txt runs)

def sProp (k v : String) : String × PVal := (k, .v (.s v))

def bProp (k : String) (v : Bool) : String × PVal := (k, .v (.b v))

/-- Modelled from the spec: the default note background token
(`DefaultTheme.noteBackgrounColor` in the tests).  Its concrete value is
never read by the adapter; the same constant is used in export inputs
and in import outputs. -/
def noteBackgroundColor : String := "--affine-note-background-white"

def pageBlock (id : String) (title : List DeltaInsert) (children : List BlockSnapshot) : BlockSnapshot :=
  .mk id "affine:page" [("title", .txt title)] children

def surfaceBlock (id : String) : BlockSnapshot :=
  .mk id "affine:surface" [("elements", .v (.obj []))] []

/-- A note block with the default props of the adapter tests (the adapter
reads none of the note's props). -/
def noteBlock (id : String) (children : List BlockSnapshot) : BlockSnapshot :=
  .mk id "affine:note"
    [sProp "xywh" "[0,0,800,95]", sProp "background" noteBackgroundColor,
     sProp "index" "a0", bProp "hidden" false, sProp "displayMode" "both"]
    children

def paraTyped (id ty : String) (runs : List DeltaInsert) (children : List BlockSnapshot) : BlockSnapshot :=
  .mk id "affine:paragraph" [sProp "type" ty, textProp runs] children

def paraBlock (id : String) (runs : List DeltaInsert) (children : List BlockSnapshot) : BlockSnapshot :=
  paraTyped id "text" runs children

/-- List block as accepted by export (no `order` prop). -/
def listExp (id ty : String) (checked : Bool) (runs : List DeltaInsert) (children : List BlockSnapshot) : BlockSnapshot :=
  .mk id "affine:list"
    [sProp "type" ty, textProp runs, bProp "checked" checked, bProp "collapsed" false] children

/-- List block as produced by import (explicit `order` prop). -/
def listImp (id ty : String) (checked : Bool) (ord : JVal) (runs : List DeltaInsert) (children : List BlockSnapshot) : BlockSnapshot :=
  .mk id "affine:list"
    [sProp "type" ty, textProp runs, bProp "checked" checked, bProp "collapsed" false,
     ("order", .v ord)] children

/-- Code block as accepted by export. -/
def codeExp (id lang : String) (runs : List DeltaInsert) : BlockSnapshot :=
  .mk id "affine:code" [sProp "language" lang, textProp runs] []

/-- Code block as produced by import (`wrap` prop added). -/
def codeImp (id lang : String) (runs : List DeltaInsert) : BlockSnapshot :=
  .mk id "affine:code" [sProp "language" lang, bProp "wrap" false, textProp runs] []

def embedSyncedBlock (id pid : String) : BlockSnapshot :=
  .mk id "affine:embed-synced-doc"
    [sProp "index" "a0", sProp "xywh" "[0,0,0,0]", ("rotate", .v (.i 0)),
     sProp "pageId" pid, sProp "style" "syncedDoc"] []

/-- Input of the `snapshot to markdown / code` adapter test. -/
def sCode : BlockSnapshot :=
  pageBlock "block:vu6SK6WJpW" []
    [surfaceBlock "block:Tk4gSPocAt",
     noteBlock "block:WfnS5ZDCJT"
       [codeExp "block:8hOLxad5Fv" "python" [tIns "import this"]]]

def mdCode : String := "```python\nimport this\n```\n"

/-- Input of the `snapshot to markdown / bulleted list` adapter test. -/
def sBullet : BlockSnapshot :=
  pageBlock "block:vu6SK6WJpW" []
    [surfaceBlock "block:Tk4gSPocAt",
     noteBlock "block:WfnS5ZDCJT"
       [listExp "block:imiLDMKSkx" "bulleted" false [tIns "aaa"]
          [listExp "block:kYliRIovvL" "bulleted" false [tIns "bbb"]
             [listExp "block:UyvxA_gqCJ" "bulleted" false [tIns "ccc"] []],
           listExp "block:-guNZRm5u1" "bulleted" false [tIns "ddd"] []],
        listExp "block:B9CaZzQ2CO" "bulleted" false [tIns "eee"] []]]

def mdBullet : String := "* aaa\n  * bbb\n    * ccc\n  * ddd\n* eee\n"

/-- Input of the `snapshot to markdown / footnote` adapter test. -/
def sFootnote : BlockSnapshot :=
  pageBlock "block:vu6SK6WJpW" []
    [surfaceBlock "block:Tk4gSPocAt",
     noteBlock "block:WfnS5ZDCJT"
       [paraBlock "block:zxDyvrg1Mh"
          [tIns "aaa",
           ⟨" ", [("footnote", .obj
             [("label", .s "1"),
              ("reference", .obj [("type", .s "url"), ("url", .s "https://www.example.com")])])]⟩,
           ⟨" ", [("footnote", .obj
             [("label", .s "2"),
              ("reference", .obj [("type", .s "doc"), ("docId", .s "deadbeef")])])]⟩,
           ⟨" ", [("footnote", .obj
             [("label", .s "3"),
              ("reference", .obj
                [("type", .s "attachment"), ("blobId", .s "abcdefg"),
                 ("fileName", .s "test.txt"), ("fileType", .s "text/plain")])])]⟩]
          []]]

def mdFootnote : String :=
  "aaa[^1][^2][^3]\n\n[^1]: \x7b\"type\":\"url\",\"url\":\"https%3A%2F%2Fwww.example.com\"\x7d\n\n[^2]: \x7b\"type\":\"doc\",\"docId\":\"deadbeef\"\x7d\n\n[^3]: \x7b\"type\":\"attachment\",\"blobId\":\"abcdefg\",\"fileName\":\"test.txt\",\"fileType\":\"text/plain\"\x7d\n"

theorem check_code : fromBlockSnapshot sCode = mdCode := rfl

theorem check_bullet : fromBlockSnapshot sBullet = mdBullet := rfl

theorem check_footnote : fromBlockSnapshot sFootnote = mdFootnote := rfl

/-! ## Markdown import (`MarkdownAdapter.toBlockSnapshot`)

Modelled from the spec (spec.md §4.5 Import): the Markdown text is parsed
into a compliant Markdown AST (blank-line separated blocks, fenced code,
nested list items, inline spans) and walked into a snapshot tree rooted at
a fresh `affine:note` block.  Fresh ids are minted in depth-first preorder;
they are written in the `matchesReplaceMap[n]` form that the unit tests use
after nanoid replacement, so that imported snapshots can be compared
literally against the test expectations. -/

/-- Decode the `&#x20;` escaped-space entity used for nested-paragraph
indentation (spec.md §4.5, first export rule). -/
def decodeEnt : List Char → List Char
  | [] => []
  | '&' :: '#' :: 'x' :: '2' :: '0' :: ';' :: rest => ' ' :: decodeEnt rest
  | c :: rest => c :: decodeEnt rest

/-- Split into lines at newline characters. -/
def splitLinesAux : List Char → List Char → List (List Char)
  | [], acc => [acc.reverse]
  | '\n' :: rest, acc => acc.reverse :: splitLinesAux rest []
  | c :: rest, acc => splitLinesAux rest (c :: acc)

def splitLines (cs : List Char) : List (List Char) := splitLinesAux cs []

def isBlankLine (l : List Char) : Bool := l.all (fun c => c = ' ')

/-- Count leading occurrences of a character. -/
def countLeading (c : Char) : List Char → Nat × List Char
  | [] => (0, [])
  | x :: rest =>
    if x = c then
      let (n, r) := countLeading c rest
      (n + 1, r)
    else (0, x :: rest)

/-- Kind of one parsed Markdown list item. -/
inductive MLKind where
  | bulleted
  | todo (checked : Bool)
  | numbered (n : Nat)

/-- One parsed Markdown list item: nesting level, kind, raw item text. -/
structure MItem where
  level : Nat
  kind : MLKind
  text : List Char

/-- Leading decimal digits. -/
def takeDigits : List Char → List Char × List Char
  | [] => ([], [])
  | c :: rest =>
    if c.isDigit then
      let (ds, r) := takeDigits rest
      (c :: ds, r)
    else ([], c :: rest)

def digitsToNat (ds : List Char) : Nat :=
  ds.foldl (fun acc c => acc * 10 + (c.toNat - 48)) 0

/-- Recognize a list-item marker after indentation: `- [ ] ` / `- [x] ` /
`* [ ] ` / `* [x] ` (todo), `* ` / `- ` / `+ ` (bulleted), `N. ` (numbered). -/
def parseMarker : List Char → Option (MLKind × List Char)
  | '-' :: ' ' :: '[' :: ' ' :: ']' :: ' ' :: rest => some (.todo false, rest)
  | '-' :: ' ' :: '[' :: 'x' :: ']' :: ' ' :: rest => some (.todo true, rest)
  | '*' :: ' ' :: '[' :: ' ' :: ']' :: ' ' :: rest => some (.todo false, rest)
  | '*' :: ' ' :: '[' :: 'x' :: ']' :: ' ' :: rest => some (.todo true, rest)
  | '-' :: ' ' :: rest => some (.bulleted, rest)
  | '*' :: ' ' :: rest => some (.bulleted, rest)
  | '+' :: ' ' :: rest => some (.bulleted, rest)
  | cs =>
    match takeDigits cs with
    | ([], _) => none
    | (ds, '.' :: ' ' :: rest) => some (.numbered (digitsToNat ds), rest)
    | _ => none

/-- Parse one line as a list item: indentation gives the nesting level
(two spaces per level, as the exporter writes). -/
def parseItemLine (l : List Char) : Option MItem :=
  let (ind, rest) := countLeading ' ' l
  match parseMarker rest with
  | some (k, txt) => some ⟨ind / 2, k, txt⟩
  | none => none

/-- A block-level node of the parsed Markdown AST. -/
inductive MBlock where
  | para (content : List Char)
  | codeB (lang : List Char) (content : List Char)
  | listB (items : List MItem)

/-- Collect the lines of a fenced code block up to the closing fence. -/
def takeFence (n : Nat) : List (List Char) → List (List Char) × List (List Char)
  | [] => ([], [])
  | l :: rest =>
    let (m, after) := countLeading (Char.ofNat 96) l
    if n ≤ m ∧ after.isEmpty then ([], rest)
    else
      let (content, r) := takeFence n rest
      (l :: content, r)

/-- The first non-blank line, if any. -/
def firstNonBlank : List (List Char) → Option (List Char)
  | [] => none
  | l :: rest => if isBlankLine l then firstNonBlank rest else some l

/-- Collect a maximal run of list-item lines; blank lines inside the run are
skipped as long as the next non-blank line is again a list item (loose and
tight lists produce the same snapshot). -/
def collectItems : Nat → List (List Char) → List MItem × List (List Char)
  | 0, ls => ([], ls)
  | _ + 1, [] => ([], [])
  | f + 1, l :: rest =>
    if isBlankLine l then
      match firstNonBlank rest with
      | some nl =>
        if (parseItemLine nl).isSome then collectItems f rest
        else ([], l :: rest)
      | none => ([], l :: rest)
    else
      match parseItemLine l with
      | some it =>
        let (its, r) := collectItems f rest
        (it :: its, r)
      | none => ([], l :: rest)

/-- Group lines into block-level AST nodes. -/
def groupBlocks : Nat → List (List Char) → List MBlock
  | 0, _ => []
  | _ + 1, [] => []
  | f + 1, l :: rest =>
    if isBlankLine l then groupBlocks f rest
    else
      let (ticks, after) := countLeading (Char.ofNat 96) l
      if 3 ≤ ticks then
        let (content, rest2) := takeFence ticks rest
        MBlock.codeB after (joinSepC ['\n'] content) :: groupBlocks f rest2
      else if (parseItemLine l).isSome then
        let (items, rest2) := collectItems (f + 1) (l :: rest)
        MBlock.listB items :: groupBlocks f rest2
      else
        MBlock.para l :: groupBlocks f rest

/-- Scan forward to a target character; returns the span before it and the
remainder after it. -/
def scanTill (t : Char) : Nat → List Char → Option (List Char × List Char)
  | 0, _ => none
  | _ + 1, [] => none
  | f + 1, c :: rest =>
    if c = t then some ([], rest)
    else match scanTill t f rest with
      | some (sp, r) => some (c :: sp, r)
      | none => none

/-- Scan a link URL up to the closing parenthesis, undoing Markdown
backslash escapes (e.g. `\&` inside query strings). -/
def scanUrl : Nat → List Char → Option (List Char × List Char)
  | 0, _ => none
  | _ + 1, [] => none
  | f + 1, '\\' :: c :: rest =>
    (match scanUrl f rest with
      | some (sp, r) => some (c :: sp, r)
      | none => none)
  | f + 1, c :: rest =>
    if c = ')' then some ([], rest)
    else match scanUrl f rest with
      | some (sp, r) => some (c :: sp, r)
      | none => none

/-- Decode percent escapes (`%2C` and the like) in a query value. -/
def pctDecode : List Char → List Char
  | '%' :: h1 :: h2 :: rest =>
    let hv := fun (c : Char) =>
      if c.isDigit then c.toNat - 48
      else if c.toNat ≥ 97 then c.toNat - 87
      else c.toNat - 55
    Char.ofNat (16 * hv h1 + hv h2) :: pctDecode rest
  | c :: rest => c :: pctDecode rest
  | [] => []

/-- Split a character list at every occurrence of a separator character. -/
def splitOnC (sep : Char) : List Char → List Char → List (List Char)
  | [], acc => [acc.reverse]
  | c :: rest, acc =>
    if c = sep then acc.reverse :: splitOnC sep rest []
    else splitOnC sep rest (c :: acc)

/-- Modelled from the spec: parse one `k=v` pair of a doc-link query string;
the list-valued `blockIds`/`elementIds` params are percent-decoded and
comma-split, other params are plain strings (spec.md §4.5
"Embedded/linked/synced-doc blocks", reversed on import). -/
def queryPair (p : List Char) : String × JVal :=
  let k := p.takeWhile (fun c => c ≠ '=')
  let v := (p.dropWhile (fun c => c ≠ '=')).drop 1
  let key := String.mk k
  if key = "blockIds" ∨ key = "elementIds" then
    (key, .arr ((splitOnC ',' (pctDecode v) []).map (fun x => .s (String.mk x))))
  else
    (key, .s (String.mk (pctDecode v)))

def parseQuery (q : List Char) : List (String × JVal) :=
  if q.isEmpty then [] else (splitOnC '&' q []).map queryPair

/-- True when `pre` is an initial segment of `cs`. -/
def leadsWith : List Char → List Char → Bool
  | [], _ => true
  | _ :: _, [] => false
  | a :: as, b :: bs => if a = b then leadsWith as bs else false

/-- Modelled from the spec: convert a parsed Markdown link into delta runs.
When the `docLinkBaseUrl` adapter config is set and the URL starts with
`{base}/`, the link becomes an atomic `reference` run of type `LinkedPage`
with the page id taken from the path and params from the query string;
otherwise it stays an ordinary `link` run. -/
def linkToRuns (cfg : Option String) (txt url : List Char) : List DeltaInsert :=
  match cfg with
  | some base =>
    if leadsWith (base.data ++ ['/']) url then
      let rest := url.drop (base.data.length + 1)
      let pid := rest.takeWhile (fun c => c ≠ '?')
      let q := (rest.dropWhile (fun c => c ≠ '?')).drop 1
      [⟨" ", [("reference", .obj
        [("type", .s "LinkedPage"), ("pageId", .s (String.mk pid)),
         ("params", .obj (parseQuery q))])]⟩]
    else [⟨String.mk txt, [("link", .s (String.mk url))]⟩]
  | none => [⟨String.mk txt, [("link", .s (String.mk url))]⟩]

/-- Modelled from the spec: whether a `$` at the current position opens an
inline-latex span, given the characters that follow it.  A dollar sign
immediately followed by a digit, or by a space and a digit, is a price and
never opens a span (spec.md §4.5 Import, latex edge case). -/
def dollarOpens : List Char → Bool
  | [] => false
  | d :: rest =>
    if d.isDigit then false
    else if d = ' ' then
      match rest with
      | d2 :: _ => !d2.isDigit
      | [] => true
    else true

/-- Flush the pending plain-text buffer into the run accumulator. -/
def flushBuf (buf : List Char) (acc : List DeltaInsert) : List DeltaInsert :=
  if buf.isEmpty then acc else ⟨String.mk buf.reverse, []⟩ :: acc

/-- Modelled from the spec: the inline Markdown parser producing a rich-text
delta: plain text, `$...$` and `\(...\)` latex spans (with the price rule),
and `[text](url)` links (spec.md §4.5 Import). -/
def inlineParseF (cfg : Option String) : Nat → List Char → List Char → List DeltaInsert → List DeltaInsert
  | 0, _, buf, acc => (flushBuf buf acc).reverse
  | _ + 1, [], buf, acc => (flushBuf buf acc).reverse
  | f + 1, '\\' :: '(' :: rest, buf, acc =>
    (match scanTill '\\' (rest.length + 1) rest with
     | some (sp, ')' :: r2) =>
       inlineParseF cfg f r2 [] (⟨" ", [("latex", .s (String.mk sp))]⟩ :: flushBuf buf acc)
     | _ => inlineParseF cfg f rest ('(' :: '\\' :: buf) acc)
  | f + 1, '\\' :: c :: rest, buf, acc => inlineParseF cfg f rest (c :: buf) acc
  | f + 1, '$' :: rest, buf, acc =>
    if dollarOpens rest then
      match scanTill '$' (rest.length + 1) rest with
      | some (sp, r2) =>
        if sp.isEmpty then inlineParseF cfg f rest ('$' :: buf) acc
        else inlineParseF cfg f r2 [] (⟨" ", [("latex", .s (String.mk sp))]⟩ :: flushBuf buf acc)
      | none => inlineParseF cfg f rest ('$' :: buf) acc
    else inlineParseF cfg f rest ('$' :: buf) acc
  | f + 1, '[' :: rest, buf, acc =>
    (match scanTill ']' (rest.length + 1) rest with
     | some (txt, '(' :: r2) =>
       match scanUrl (r2.length + 1) r2 with
       | some (url, r3) =>
         inlineParseF cfg f r3 [] ((linkToRuns cfg txt url).reverse ++ flushBuf buf acc)
       | none => inlineParseF cfg f rest ('[' :: buf) acc
     | _ => inlineParseF cfg f rest ('[' :: buf) acc)
  | f + 1, c :: rest, buf, acc => inlineParseF cfg f rest (c :: buf) acc

def inlineParse (cfg : Option String) (cs : List Char) : List DeltaInsert :=
  inlineParseF cfg (cs.length + 1) cs [] []

/-- The `order` prop value of an imported list item: the literal start value
for the first numbered item of a run, successor of the previous order for
the following items of the same run (a compliant Markdown AST keeps only
the start value of an ordered list; items are numbered consecutively from
it), and null for bulleted and todo items. -/
def orderPropOf (prev : Option Nat) (k : MLKind) : JVal :=
  match k with
  | .numbered n =>
    match prev with
    | none => .i (Int.ofNat n)
    | some p => .i (Int.ofNat (p + 1))
  | _ => .null

def assignedOrder (prev : Option Nat) (k : MLKind) : Option Nat :=
  match k with
  | .numbered n =>
    match prev with
    | none => some n
    | some p => some (p + 1)
  | _ => none

/-- Properties of an imported list block (spec.md §4.5 Import; prop order as
in the adapter tests). -/
def listItemProps (ord : JVal) (k : MLKind) (delta : List DeltaInsert) : List (String × PVal) :=
  let ty := match k with
    | .bulleted => "bulleted"
    | .todo _ => "todo"
    | .numbered _ => "numbered"
  let checked := match k with
    | .todo c => c
    | _ => false
  [sProp "type" ty, textProp delta, bProp "checked" checked, bProp "collapsed" false,
   ("order", .v ord)]

mutual

/-- Build the list blocks of one nesting level from a flat item sequence;
returns the blocks and the unconsumed items (those of a shallower level).
`prev` is the order assigned to the previous numbered sibling of this run. -/
def buildLevel (cfg : Option String) : Nat → Nat → Option Nat → List MItem → List BlockSnapshot × List MItem
  | 0, _, _, its => ([], its)
  | _ + 1, _, _, [] => ([], [])
  | f + 1, lvl, prev, it :: rest =>
    if it.level < lvl then ([], it :: rest)
    else
      let (chs, rest2) := buildLevel cfg f (lvl + 1) none rest
      let ord := orderPropOf prev it.kind
      let b := BlockSnapshot.mk "" "affine:list"
        (listItemProps ord it.kind (inlineParse cfg it.text)) chs
      let (sibs, rest3) := buildLevel cfg f lvl (assignedOrder prev it.kind) rest2
      (b :: sibs, rest3)

end

/-- Convert one parsed Markdown block node into snapshot blocks. -/
def mblockToBlocks (cfg : Option String) (mb : MBlock) : List BlockSnapshot :=
  match mb with
  | .para content =>
    [BlockSnapshot.mk "" "affine:paragraph"
      [sProp "type" "text", textProp (inlineParse cfg content)] []]
  | .codeB lang content =>
    [BlockSnapshot.mk "" "affine:code"
      [sProp "language" (String.mk lang), bProp "wrap" false,
       textProp [⟨String.mk content, []⟩]] []]
  | .listB items => (buildLevel cfg (items.length + 1) 0 none items).1

/-- Mint fresh ids in depth-first preorder, in the `matchesReplaceMap[n]`
shape that the adapter unit tests compare against. -/
def freshId (n : Nat) : String :=
  String.mk ("matchesReplaceMap[".data ++ natChars n ++ [']'])

mutual

def assignIds : Nat → Nat → BlockSnapshot → BlockSnapshot × Nat
  | 0, n, b => (b, n)
  | f + 1, n, .mk _ fl pr ch =>
    let (ch2, n2) := assignIdsList f (n + 1) ch
    (.mk (freshId n) fl pr ch2, n2)

def assignIdsList : Nat → Nat → List BlockSnapshot → List BlockSnapshot × Nat
  | 0, n, bs => (bs, n)
  | _ + 1, n, [] => ([], n)
  | f + 1, n, b :: rest =>
    let (b2, n2) := assignIds f n b
    let (rest2, n3) := assignIdsList f n2 rest
    (b2 :: rest2, n3)

end

/-- Modelled from the spec: `MarkdownAdapter.toBlockSnapshot` — parse
Markdown into a snapshot tree rooted at a fresh `affine:note` block
(spec.md §4.5 Import); `cfg` is the optional `docLinkBaseUrl` adapter
config (spec.md §4.6). -/
def toBlockSnapshot (cfg : Option String) (file : String) : BlockSnapshot :=
  let lines := splitLines (decodeEnt file.data)
  let mbs := groupBlocks (lines.length + 1) lines
  let children := mbs.flatMap (mblockToBlocks cfg)
  let root := BlockSnapshot.mk "" "affine:note"
    [sProp "xywh" "[0,0,800,95]", sProp "background" noteBackgroundColor,
     sProp "index" "a0", bProp "hidden" false, sProp "displayMode" "both"]
    children
  (assignIds 1000 0 root).1

/-- The note root minted by import, with the children supplied. -/
def impNote (children : List BlockSnapshot) : BlockSnapshot :=
  .mk "matchesReplaceMap[0]" "affine:note"
    [sProp "xywh" "[0,0,800,95]", sProp "background" noteBackgroundColor,
     sProp "index" "a0", bProp "hidden" false, sProp "displayMode" "both"]
    children

/-- Imported paragraph block. -/
def impPara (id : String) (runs : List DeltaInsert) : BlockSnapshot :=
  .mk id "affine:paragraph" [sProp "type" "text", textProp runs] []

/-- Expected output of the `markdown to snapshot / code` adapter test. -/
def iCode : BlockSnapshot :=
  impNote [codeImp "matchesReplaceMap[1]" "python" [tIns "import this"]]

/-- Expected output of the `markdown to snapshot / bulleted list` test. -/
def iBullet : BlockSnapshot :=
  impNote
    [listImp "matchesReplaceMap[1]" "bulleted" false .null [tIns "aaa"]
       [listImp "matchesReplaceMap[2]" "bulleted" false .null [tIns "bbb"]
          [listImp "matchesReplaceMap[3]" "bulleted" false .null [tIns "ccc"] []],
        listImp "matchesReplaceMap[4]" "bulleted" false .null [tIns "ddd"] []],
     listImp "matchesReplaceMap[5]" "bulleted" false .null [tIns "eee"] []]

/-- The loose-list Markdown input of the `markdown to snapshot / bulleted
list` adapter test. -/
def mdBulletLoose : String := "* aaa\n\n  * bbb\n\n    * ccc\n\n  - ddd\n\n- eee\n"

/-- The Markdown input of the `markdown to snapshot / todo list` test. -/
def mdTodoLoose : String :=
  "- [ ] aaa\n\n  - [x] bbb\n\n    - [ ] ccc\n\n  - [x] ddd\n\n- [ ] eee\n"

/-- Expected output of the `markdown to snapshot / todo list` test. -/
def iTodo : BlockSnapshot :=
  impNote
    [listImp "matchesReplaceMap[1]" "todo" false .null [tIns "aaa"]
       [listImp "matchesReplaceMap[2]" "todo" true .null [tIns "bbb"]
          [listImp "matchesReplaceMap[3]" "todo" false .null [tIns "ccc"] []],
        listImp "matchesReplaceMap[4]" "todo" true .null [tIns "ddd"] []],
     listImp "matchesReplaceMap[5]" "todo" false .null [tIns "eee"] []]

/-- The Markdown input of the `markdown to snapshot / non consecutive
numbered list` adapter test. -/
def mdNumbered : String := "\n1. aaa\n\nbbb\n\n3. ccc\n4. ddd\n"

/-- Expected output of the `non consecutive numbered list` test: the orders
1, 3 and 4 are recorded. -/
def iNumbered : BlockSnapshot :=
  impNote
    [listImp "matchesReplaceMap[1]" "numbered" false (.i 1) [tIns "aaa"] [],
     impPara "matchesReplaceMap[2]" [tIns "bbb"],
     listImp "matchesReplaceMap[3]" "numbered" false (.i 3) [tIns "ccc"] [],
     listImp "matchesReplaceMap[4]" "numbered" false (.i 4) [tIns "ddd"] []]

/-- The price sentence of the `latex block / escapes dollar signs` test. -/
def mdPrice : String :=
  "The price of the T-shirt is $9.15 and the price of the hat is $ 8\n"

def iPrice : BlockSnapshot :=
  impNote
    [impPara "matchesReplaceMap[1]"
       [tIns "The price of the T-shirt is $9.15 and the price of the hat is $ 8"]]

/-- Expected output of both `inline latex` adapter tests. -/
def iInlineLatex : BlockSnapshot :=
  impNote
    [impPara "matchesReplaceMap[1]"
       [tIns "inline ", ⟨" ", [("latex", .s "E=mc^2")]⟩, tIns " latex"]]

theorem check_icode : toBlockSnapshot none mdCode = iCode := rfl

theorem check_ibullet : toBlockSnapshot none mdBulletLoose = iBullet := rfl

theorem check_ibullet_tight : toBlockSnapshot none mdBullet = iBullet := rfl

theorem check_itodo : toBlockSnapshot none mdTodoLoose = iTodo := rfl

theorem check_inumbered : toBlockSnapshot none mdNumbered = iNumbered := rfl

theorem check_iprice : toBlockSnapshot none mdPrice = iPrice := rfl

theorem check_ilatex1 : toBlockSnapshot none "inline $E=mc^2$ latex\n" = iInlineLatex := rfl

theorem check_ilatex2 : toBlockSnapshot none "inline \\(E=mc^2\\) latex\n" = iInlineLatex := rfl

/-- The Markdown input of the `markdown to snapshot / reference` adapter
test (the `\&` escapes are Markdown backslash escapes inside the URLs). -/
def mdRef : String :=
  "\naaa\n\n&#x20;   bbb\n\n[untitled](https://example.com/4T5ObMgEIMII-4Bexyta1)\n\n&#x20;   ccc\n\n&#x20;       ddd\n\n&#x20;       eee[test](https://example.com/deadbeef?mode=page\\&blockIds=abc%2C123\\&elementIds=def%2C456)[](https://example.com/foobar)\n\n&#x20;       fff\n\n&#x20;   ggg\n\nhhh\n"

/-- An atomic LinkedPage reference run. -/
def refRun (pid : String) (params : List (String × JVal)) : DeltaInsert :=
  ⟨" ", [("reference", .obj
    [("type", .s "LinkedPage"), ("pageId", .s pid), ("params", .obj params)])]⟩

/-- Expected output of the `reference` adapter test. -/
def iRef : BlockSnapshot :=
  impNote
    [impPara "matchesReplaceMap[1]" [tIns "aaa"],
     impPara "matchesReplaceMap[2]" [tIns "    bbb"],
     impPara "matchesReplaceMap[3]" [refRun "4T5ObMgEIMII-4Bexyta1" []],
     impPara "matchesReplaceMap[4]" [tIns "    ccc"],
     impPara "matchesReplaceMap[5]" [tIns "        ddd"],
     impPara "matchesReplaceMap[6]"
       [tIns "        eee",
        refRun "deadbeef"
          [("mode", .s "page"),
           ("blockIds", .arr [.s "abc", .s "123"]),
           ("elementIds", .arr [.s "def", .s "456"])],
        refRun "foobar" []],
     impPara "matchesReplaceMap[7]" [tIns "        fff"],
     impPara "matchesReplaceMap[8]" [tIns "    ggg"],
     impPara "matchesReplaceMap[9]" [tIns "hhh"]]

theorem check_iref : toBlockSnapshot (some "https://example.com") mdRef = iRef := rfl

/-! ## The synced-doc documents of the `snapshot to markdown / synced-doc`
adapter test (claim C2). -/

def deepestSyncedDoc : DocSnapshot :=
  ⟨"deepestSyncedDoc", "Deepest Doc",
   pageBlock "8WdJmN5FTT" [tIns "Deepest Doc"]
     [surfaceBlock "zVN1EZFuZe",
      noteBlock "2s9sJlphLH"
        [paraBlock "vNp5XrR5yw" [] [],
         paraBlock "JTdfSl1ygZ" [tIns "Hello, This is deepest doc."] []]]⟩

def syncedDoc : DocSnapshot :=
  ⟨"syncedDoc", "Synced Doc",
   pageBlock "AGOahFisBN" [tIns "Synced Doc"]
     [surfaceBlock "gfVzx5tGpB",
      noteBlock "CzEfaUret4"
        [paraTyped "yFlNufsgke" "h1" [tIns "Heading 1"] [],
         paraTyped "oMuLcD6XS3" "h2" [tIns "heading 2"] [],
         paraBlock "PQ8FhGV6VM" [tIns "paragraph"] [],
         paraBlock "sA9paSrdEN" [⟨"strike", [("strike", .b true)]⟩] [],
         BlockSnapshot.mk "DF26giFpKX" "affine:code"
           [textProp [tIns "Hello world!"], sProp "language" "cpp",
            bProp "wrap" false, sProp "caption" ""] [],
         embedSyncedBlock "-3bbVQTvI2" "deepestSyncedDoc"]]⟩

def testDoc : DocSnapshot :=
  ⟨"y5nsrywQtr", "Test Doc",
   pageBlock "VChAZIX7DM" [tIns "Test Doc"]
     [surfaceBlock "uRj8gejH4d",
      noteBlock "AqFoVDUoW9"
        [paraBlock "cWBI4UGTqh" [tIns "Hello"] [],
         embedSyncedBlock "AqFoVxas19" "syncedDoc",
         paraBlock "Db976U9v18" [tIns "World!"] []]]⟩

def syncedDocEnv : List DocSnapshot := [deepestSyncedDoc, syncedDoc, testDoc]

def syncedDocMd : String :=
  "# Synced Doc\n\n# Heading 1\n\n## heading 2\n\nparagraph\n\n~~strike~~\n\n```cpp\nHello world!\n```"

def testDocMd : String :=
  "# Test Doc\n\nHello\n\n" ++ syncedDocMd ++ "\n\nDeepest Doc\n\nWorld!\n"

theorem check_syncdoc : fromDocSnapshot syncedDocEnv testDoc = testDocMd := rfl

/-- True when `needle` occurs as a contiguous substring of `hay`. -/
def containsSub (needle : List Char) : List Char → Bool
  | [] => leadsWith needle []
  | c :: rest => leadsWith needle (c :: rest) || containsSub needle rest

theorem check_sub1 : containsSub syncedDocMd.data testDocMd.data = true := rfl

theorem check_sub2 : containsSub "Hello, This is deepest doc.".data testDocMd.data = false := rfl

/-! ## Fractional indexing (`generateKeyBetween`)

The key generator is re-exported from the `fractional-indexing` package
(src/unnamed/part_000, line 108) and its implementation is not part of the
source tree.  Modelled from the spec (spec.md §4.1): keys are
arbitrary-precision base-62 digit strings over `0-9A-Z-a-z` (whose byte
order coincides with digit order), a valid key is nonempty and does not end
in the zero digit `'0'` (otherwise no key can exist strictly between `k`
and `k ++ "0"`), and the generator returns the midpoint key strictly
between its arguments, failing with `InvalidOrderError` when `a ≥ b` and
with an invalid-key error when an argument is not a valid key. -/

/-- The base-62 digit alphabet, digit value to character. -/
def digitChar (d : Nat) : Char :=
  if d < 10 then Char.ofNat (48 + d)
  else if d < 36 then Char.ofNat (55 + d)
  else Char.ofNat (61 + d)

/-- Character to digit value. -/
def charDigit (c : Char) : Option Nat :=
  if 48 ≤ c.toNat ∧ c.toNat ≤ 57 then some (c.toNat - 48)
  else if 65 ≤ c.toNat ∧ c.toNat ≤ 90 then some (c.toNat - 55)
  else if 97 ≤ c.toNat ∧ c.toNat ≤ 122 then some (c.toNat - 61)
  else none

/-- Parse a key string into digit values; fails on foreign characters. -/
def parseKey (s : String) : Option (List Nat) := s.data.mapM charDigit

/-- A parsed key is valid when nonempty and not ending in the zero digit. -/
def okKey (k : List Nat) : Bool :=
  match k, k.getLast? with
  | [], _ => false
  | _ :: _, some 0 => false
  | _ :: _, _ => true

/-- Boolean lexicographic comparison of digit lists. -/
def lexLt : List Nat → List Nat → Bool
  | _, [] => false
  | [], _ :: _ => true
  | x :: xs, y :: ys => if x < y then true else if y < x then false else lexLt xs ys

/-- Modelled from the spec: the midpoint key strictly between `a` and `b`
(`b = none` meaning no upper bound), the core of `generateKeyBetween`
(spec.md §4.1).  Shared leading digits are copied; a gap of two or more
between the leading digits admits a one-digit midpoint; consecutive leading
digits recurse on the remainder. -/
def midpointF : Nat → List Nat → Option (List Nat) → List Nat
  | 0, _, _ => []
  | _ + 1, _, some [] => []
  | f + 1, a, some (db :: bs) =>
    if a.headD 0 = db then db :: midpointF f a.tail (some bs)
    else if a.headD 0 + 1 < db then [(a.headD 0 + db + 1) / 2]
    else
      match bs with
      | [] => a.headD 0 :: midpointF f a.tail none
      | _ :: _ => [db]
  | f + 1, a, none =>
    if a.headD 0 + 1 < 62 then [(a.headD 0 + 63) / 2]
    else a.headD 0 :: midpointF f a.tail none

/-- Sufficient fuel for `midpointF`. -/
def keyFuel (a : List Nat) (b : Option (List Nat)) : Nat :=
  a.length + (match b with | none => 0 | some bs => bs.length) + 1

def midpointK (a : List Nat) (b : Option (List Nat)) : List Nat :=
  midpointF (keyFuel a b) a b

/-- Render a digit key as a string. -/
def keyString (k : List Nat) : String := String.mk (k.map digitChar)

inductive KeyError where
  | invalidKey
  | invalidOrder

/-- Modelled from the spec: `generateKeyBetween(a, b)` — a key strictly
between `a` and `b`, below `b` when `a` is null, above `a` when `b` is
null; `InvalidOrderError` when both are given and `a ≥ b` (spec.md §4.1). -/
def generateKeyBetween (a b : Option String) : Except KeyError String :=
  match a, b with
  | none, none => .ok (keyString (midpointK [] none))
  | some a, none =>
    match parseKey a with
    | none => .error .invalidKey
    | some ka =>
      if okKey ka then .ok (keyString (midpointK ka none)) else .error .invalidKey
  | none, some b =>
    match parseKey b with
    | none => .error .invalidKey
    | some kb =>
      if okKey kb then .ok (keyString (midpointK [] (some kb))) else .error .invalidKey
  | some a, some b =>
    match parseKey a, parseKey b with
    | some ka, some kb =>
      if okKey ka && okKey kb then
        if lexLt ka kb then .ok (keyString (midpointK ka (some kb)))
        else .error .invalidOrder
      else .error .invalidKey
    | _, _ => .error .invalidKey

/-- Repeated insertion between the latest generated key and the fixed upper
bound, on parsed keys. -/
def keyChain (a b : List Nat) : Nat → List Nat
  | 0 => midpointK a (some b)
  | n + 1 => midpointK (keyChain a b n) (some b)

/-- All digits of a key are base-62 digits. -/
def GoodDigits (k : List Nat) : Prop := ∀ d ∈ k, d < 62

/-- The key does not end in the zero digit. -/
def NoTrailZero (k : List Nat) : Prop := k.getLast? ≠ some 0

theorem goodDigits_tail {x : Nat} {xs : List Nat} (h : GoodDigits (x :: xs)) : GoodDigits xs :=
  fun d hd => h d (List.mem_cons_of_mem x hd)

theorem goodDigits_head {x : Nat} {xs : List Nat} (h : GoodDigits (x :: xs)) : x < 62 :=
  h x (List.mem_cons_self x xs)

theorem noTrailZero_nil : NoTrailZero [] := by
  simp [NoTrailZero]

theorem noTrailZero_tail {x : Nat} {xs : List Nat} (h : NoTrailZero (x :: xs)) : NoTrailZero xs := by
  cases xs with
  | nil => exact noTrailZero_nil
  | cons y ys =>
    simpa [NoTrailZero, List.getLast?_cons_cons] using h

theorem noTrailZero_single {x : Nat} (h : NoTrailZero [x]) : x ≠ 0 := by
  intro h0
  exact h (by simp [h0])

theorem midpointF_spec : ∀ f a b,
    GoodDigits a → NoTrailZero a →
    (∀ bs, b = some bs → GoodDigits bs ∧ NoTrailZero bs ∧ bs ≠ [] ∧ List.Lex (· < ·) a bs) →
    keyFuel a b ≤ f →
    List.Lex (· < ·) a (midpointF f a b) ∧
    (∀ bs, b = some bs → List.Lex (· < ·) (midpointF f a b) bs) ∧
    GoodDigits (midpointF f a b) ∧ NoTrailZero (midpointF f a b) ∧ midpointF f a b ≠ [] := by
  intro f
  induction f with
  | zero =>
    intro a b _ _ _ hf
    exact absurd hf (by cases b <;> simp [keyFuel])
  | succ f ih =>
    intro a b hga hta hb hf
    cases b with
    | none =>
      simp only [midpointF]
      by_cases h61 : a.headD 0 + 1 < 62
      · rw [if_pos h61]
        have hdm := Nat.div_add_mod (a.headD 0 + 63) 2
        have hmod : (a.headD 0 + 63) % 2 < 2 := Nat.mod_lt _ (by omega)
        have h1 : a.headD 0 < (a.headD 0 + 63) / 2 := by omega
        have h2 : (a.headD 0 + 63) / 2 < 62 := by omega
        refine ⟨?_, fun bs h => Option.noConfusion h, ?_, ?_, by simp⟩
        · cases a with
          | nil => exact List.Lex.nil
          | cons a0 as => exact List.Lex.rel h1
        · intro d hd
          simp only [List.mem_singleton] at hd
          omega
        · intro hcon
          simp only [List.getLast?_singleton, Option.some.injEq] at hcon
          omega
      · rw [if_neg h61]
        cases a with
        | nil => exact absurd (by simp) h61
        | cons a0 as =>
          have ihr := ih as none (goodDigits_tail hga) (noTrailZero_tail hta)
            (fun bs h => nomatch h) (by simp [keyFuel] at hf ⊢; omega)
          obtain ⟨ih1, _, ih3, ih4, ih5⟩ := ihr
          simp only [List.headD_cons, List.tail_cons]
          refine ⟨List.Lex.cons ih1, fun bs h => Option.noConfusion h, ?_, ?_, by simp⟩
          · intro d hd
            rcases List.mem_cons.mp hd with h | h
            · subst h; exact goodDigits_head hga
            · exact ih3 d h
          · cases hm : midpointF f as none with
            | nil => exact absurd hm ih5
            | cons m0 ms =>
              have := ih4
              rw [hm] at this
              simpa [NoTrailZero, List.getLast?_cons_cons] using this
    | some bs0 =>
      cases bs0 with
      | nil =>
        obtain ⟨_, _, hne, _⟩ := hb [] rfl
        exact absurd rfl hne
      | cons db bsr =>
        obtain ⟨hgb, htb, _, hlex⟩ := hb (db :: bsr) rfl
        simp only [midpointF]
        by_cases hda : a.headD 0 = db
        · rw [if_pos hda]
          have hbsr_ne : bsr ≠ [] := by
            cases a with
            | nil =>
              intro hbe
              subst hbe
              simp only [List.headD_nil] at hda
              exact noTrailZero_single htb hda.symm
            | cons a0 as =>
              simp only [List.headD_cons] at hda
              subst hda
              cases hlex with
              | rel h => exact absurd h (lt_irrefl _)
              | cons h =>
                intro hbe
                subst hbe
                exact List.Lex.not_nil_right _ _ h
          have hlex2 : List.Lex (· < ·) a.tail bsr := by
            cases a with
            | nil =>
              cases bsr with
              | nil => exact absurd rfl hbsr_ne
              | cons b1 br => exact List.Lex.nil
            | cons a0 as =>
              simp only [List.headD_cons] at hda
              subst hda
              cases hlex with
              | rel h => exact absurd h (lt_irrefl _)
              | cons h => simpa using h
          have ihr := ih a.tail (some bsr)
            (by cases a with
              | nil => intro d hd; simp at hd
              | cons a0 as => exact goodDigits_tail hga)
            (by cases a with
              | nil => exact noTrailZero_nil
              | cons a0 as => exact noTrailZero_tail hta)
            (fun bs h => by
              injection h with h
              subst h
              exact ⟨goodDigits_tail hgb, noTrailZero_tail htb, hbsr_ne, hlex2⟩)
            (by
              simp only [keyFuel] at hf ⊢
              have : a.tail.length ≤ a.length := by
                cases a <;> simp
              simp only [List.length_cons] at hf
              omega)
          obtain ⟨ih1, ih2, ih3, ih4, ih5⟩ := ihr
          refine ⟨?_, ?_, ?_, ?_, by simp⟩
          · cases a with
            | nil => exact List.Lex.nil
            | cons a0 as =>
              simp only [List.headD_cons] at hda
              subst hda
              exact List.Lex.cons (by simpa using ih1)
          · intro bs h
            injection h with h
            subst h
            exact List.Lex.cons (ih2 bsr rfl)
          · intro d hd
            rcases List.mem_cons.mp hd with h | h
            · subst h; exact goodDigits_head hgb
            · exact ih3 d h
          · cases hm : midpointF f a.tail (some bsr) with
            | nil => exact absurd hm ih5
            | cons m0 ms =>
              have := ih4
              rw [hm] at this
              simpa [NoTrailZero, List.getLast?_cons_cons] using this
        · by_cases hgap : a.headD 0 + 1 < db
          · rw [if_neg hda, if_pos hgap]
            have hdm := Nat.div_add_mod (a.headD 0 + db + 1) 2
            have hmod : (a.headD 0 + db + 1) % 2 < 2 := Nat.mod_lt _ (by omega)
            have h1 : a.headD 0 < (a.headD 0 + db + 1) / 2 := by omega
            have h2 : (a.headD 0 + db + 1) / 2 < db := by omega
            refine ⟨?_, ?_, ?_, ?_, by simp⟩
            · cases a with
              | nil => exact List.Lex.nil
              | cons a0 as => exact List.Lex.rel h1
            · intro bs h
              injection h with h
              subst h
              exact List.Lex.rel h2
            · intro d hd
              simp only [List.mem_singleton] at hd
              have := goodDigits_head hgb
              omega
            · intro hcon
              simp only [List.getLast?_singleton, Option.some.injEq] at hcon
              omega
          · rw [if_neg hda, if_neg hgap]
            have hdalt : a.headD 0 < db := by
              cases a with
              | nil =>
                simp only [List.headD_nil]
                simp only [List.headD_nil] at hda
                omega
              | cons a0 as =>
                simp only [List.headD_cons] at hda ⊢
                cases hlex with
                | rel h => exact h
                | cons h => exact absurd rfl hda
            cases bsr with
            | nil =>
              have ihr := ih a.tail none
                (by cases a with
                  | nil => intro d hd; simp at hd
                  | cons a0 as => exact goodDigits_tail hga)
                (by cases a with
                  | nil => exact noTrailZero_nil
                  | cons a0 as => exact noTrailZero_tail hta)
                (fun bs h => nomatch h)
                (by
                  simp only [keyFuel, List.length_cons, List.length_nil] at hf ⊢
                  have : a.tail.length ≤ a.length := by
                    cases a <;> simp
                  omega)
              obtain ⟨ih1, _, ih3, ih4, ih5⟩ := ihr
              refine ⟨?_, ?_, ?_, ?_, by simp⟩
              · cases a with
                | nil => exact List.Lex.nil
                | cons a0 as =>
                  simp only [List.headD_cons]
                  exact List.Lex.cons (by simpa using ih1)
              · intro bs h
                injection h with h
                subst h
                exact List.Lex.rel hdalt
              · intro d hd
                rcases List.mem_cons.mp hd with h | h
                · subst h
                  have := goodDigits_head hgb
                  omega
                · exact ih3 d h
              · cases hm : midpointF f a.tail none with
                | nil => exact absurd hm ih5
                | cons m0 ms =>
                  have := ih4
                  rw [hm] at this
                  simpa [NoTrailZero, List.getLast?_cons_cons] using this
            | cons b1 br =>
              refine ⟨?_, ?_, ?_, ?_, by simp⟩
              · cases a with
                | nil => exact List.Lex.nil
                | cons a0 as => exact List.Lex.rel hdalt
              · intro bs h
                injection h with h
                subst h
                exact List.Lex.cons List.Lex.nil
              · intro d hd
                simp only [List.mem_singleton] at hd
                subst hd
                exact goodDigits_head hgb
              · intro hcon
                simp only [List.getLast?_singleton, Option.some.injEq] at hcon
                omega

theorem charDigit_digitChar : ∀ d, d < 62 → charDigit (digitChar d) = some d := by decide

theorem digitChar_lt_iff : ∀ d1, d1 < 62 → ∀ d2, d2 < 62 →
    (digitChar d1 < digitChar d2 ↔ d1 < d2) := by decide

theorem digitChar_inj {d1 d2 : Nat} (h1 : d1 < 62) (h2 : d2 < 62)
    (h : digitChar d1 = digitChar d2) : d1 = d2 := by
  have e1 := charDigit_digitChar d1 h1
  have e2 := charDigit_digitChar d2 h2
  rw [h, e2] at e1
  exact (Option.some.injEq _ _ ▸ e1).symm

theorem parseKey_keyString {k : List Nat} (h : GoodDigits k) : parseKey (keyString k) = some k := by
  show (k.map digitChar).mapM charDigit = some k
  induction k with
  | nil => rfl
  | cons x xs ih =>
    have hx := charDigit_digitChar x (goodDigits_head h)
    have hxs := ih (goodDigits_tail h)
    simp only [List.map_cons, List.mapM_cons, hx, hxs, Option.bind_eq_bind,
      Option.some_bind, Option.pure_def]

theorem charDigit_lt62 {c : Char} {d : Nat} (h : charDigit c = some d) : d < 62 := by
  unfold charDigit at h
  split_ifs at h <;> injection h with h <;> omega

theorem digitChar_charDigit {c : Char} {d : Nat} (h : charDigit c = some d) : digitChar d = c := by
  unfold charDigit at h
  unfold digitChar
  split_ifs at h with hc1 hc2 hc3 <;> injection h with h <;> subst h
  · rw [if_pos (by omega)]
    have he : 48 + (c.toNat - 48) = c.toNat := by omega
    rw [he, Char.ofNat_toNat]
  · rw [if_neg (by omega), if_pos (by omega)]
    have he : 55 + (c.toNat - 55) = c.toNat := by omega
    rw [he, Char.ofNat_toNat]
  · rw [if_neg (by omega), if_neg (by omega)]
    have he : 61 + (c.toNat - 61) = c.toNat := by omega
    rw [he, Char.ofNat_toNat]

theorem parseChars_good : ∀ l : List Char, ∀ k : List Nat,
    l.mapM charDigit = some k → GoodDigits k := by
  intro l
  induction l with
  | nil =>
    intro k h
    simp only [List.mapM_nil, Option.pure_def, Option.some.injEq] at h
    subst h
    intro d hd
    simp at hd
  | cons c cs ih =>
    intro k h
    simp only [List.mapM_cons, Option.bind_eq_bind, Option.pure_def] at h
    cases hc : charDigit c with
    | none => rw [hc] at h; simp at h
    | some d =>
      rw [hc] at h
      simp only [Option.some_bind] at h
      cases hcs : cs.mapM charDigit with
      | none => rw [hcs] at h; simp at h
      | some ds =>
        rw [hcs] at h
        simp only [Option.some_bind, Option.some.injEq] at h
        subst h
        intro d2 hd2
        rcases List.mem_cons.mp hd2 with h | h
        · subst h; exact charDigit_lt62 hc
        · exact ih ds hcs d2 h

theorem parseKey_good {s : String} {k : List Nat} (h : parseKey s = some k) : GoodDigits k :=
  parseChars_good s.data k h

theorem keyString_parseKey {s : String} {k : List Nat} (h : parseKey s = some k) :
    keyString k = s := by
  cases s with
  | mk l =>
    show String.mk (k.map digitChar) = String.mk l
    congr 1
    induction l generalizing k with
    | nil =>
      simp only [parseKey, List.mapM_nil, Option.pure_def, Option.some.injEq] at h
      subst h
      rfl
    | cons c cs ih =>
      simp only [parseKey, List.mapM_cons, Option.bind_eq_bind, Option.pure_def] at h
      cases hc : charDigit c with
      | none => rw [hc] at h; simp at h
      | some d =>
        rw [hc] at h
        simp only [Option.some_bind] at h
        cases hcs : cs.mapM charDigit with
        | none => rw [hcs] at h; simp at h
        | some ds =>
          rw [hcs] at h
          simp only [Option.some_bind, Option.some.injEq] at h
          subst h
          simp only [List.map_cons]
          rw [digitChar_charDigit hc, ih hcs]

theorem okKey_ne {k : List Nat} (h : okKey k = true) : k ≠ [] := by
  cases k with
  | nil => simp [okKey] at h
  | cons x xs => simp

theorem okKey_noTrail {k : List Nat} (h : okKey k = true) : NoTrailZero k := by
  intro hcon
  cases k with
  | nil => simp at hcon
  | cons x xs => simp [okKey, hcon] at h

theorem okKey_intro {k : List Nat} (hne : k ≠ []) (ht : NoTrailZero k) : okKey k = true := by
  cases k with
  | nil => exact absurd rfl hne
  | cons x xs =>
    cases hg : (x :: xs).getLast? with
    | none => simp [okKey, hg]
    | some n =>
      cases n with
      | zero => exact absurd hg ht
      | succ m => simp [okKey, hg]

theorem lexLt_iff : ∀ k1 k2 : List Nat, lexLt k1 k2 = true ↔ List.Lex (· < ·) k1 k2 := by
  intro k1
  induction k1 with
  | nil =>
    intro k2
    cases k2 with
    | nil => simp [lexLt]
    | cons y ys => exact iff_of_true rfl List.Lex.nil
  | cons x xs ih =>
    intro k2
    cases k2 with
    | nil => simp [lexLt]
    | cons y ys =>
      rcases Nat.lt_trichotomy x y with h | h | h
      · exact iff_of_true (by simp [lexLt, h]) (List.Lex.rel h)
      · subst h
        simp only [lexLt, lt_irrefl, if_false]
        exact (ih ys).trans List.Lex.cons_iff.symm
      · refine iff_of_false (by simp [lexLt, h, Nat.lt_asymm h]) ?_
        intro hcon
        cases hcon with
        | rel hr => exact Nat.lt_asymm h hr
        | cons hc => exact absurd h (lt_irrefl x)

theorem lex_cons_inv {α : Type} {r : α → α → Prop} {a b : α} {l1 l2 : List α}
    (h : List.Lex r (a :: l1) (b :: l2)) : r a b ∨ (a = b ∧ List.Lex r l1 l2) := by
  cases h with
  | rel hr => exact Or.inl hr
  | cons hc => exact Or.inr ⟨rfl, hc⟩

theorem mapLex_iff : ∀ k1 k2 : List Nat, GoodDigits k1 → GoodDigits k2 →
    (List.Lex (· < ·) (k1.map digitChar) (k2.map digitChar) ↔ List.Lex (· < ·) k1 k2) := by
  intro k1
  induction k1 with
  | nil =>
    intro k2 _ _
    cases k2 with
    | nil => simp
    | cons y ys => exact iff_of_true List.Lex.nil List.Lex.nil
  | cons x xs ih =>
    intro k2 h1 h2
    cases k2 with
    | nil => simp
    | cons y ys =>
      have hx := goodDigits_head h1
      have hy := goodDigits_head h2
      rcases Nat.lt_trichotomy x y with h | h | h
      · exact iff_of_true (List.Lex.rel ((digitChar_lt_iff x hx y hy).mpr h)) (List.Lex.rel h)
      · subst h
        simp only [List.map_cons]
        exact List.Lex.cons_iff.trans
          ((ih ys (goodDigits_tail h1) (goodDigits_tail h2)).trans List.Lex.cons_iff.symm)
      · refine iff_of_false ?_ ?_
        · intro hcon
          rcases lex_cons_inv hcon with hr | ⟨he, _⟩
          · exact Nat.lt_asymm h ((digitChar_lt_iff x hx y hy).mp hr)
          · exact absurd (digitChar_inj hx hy he) (by omega)
        · intro hcon
          cases hcon with
          | rel hr => exact Nat.lt_asymm h hr
          | cons hc => exact absurd h (lt_irrefl x)

theorem keyString_lt_iff {k1 k2 : List Nat} (h1 : GoodDigits k1) (h2 : GoodDigits k2) :
    (keyString k1 < keyString k2 ↔ List.Lex (· < ·) k1 k2) := by
  rw [String.lt_iff_toList_lt]
  exact mapLex_iff k1 k2 h1 h2

theorem midpointK_between {a bs : List Nat} (hga : GoodDigits a) (hta : NoTrailZero a)
    (hgb : GoodDigits bs) (htb : NoTrailZero bs) (hne : bs ≠ [])
    (hlex : List.Lex (· < ·) a bs) :
    List.Lex (· < ·) a (midpointK a (some bs)) ∧
    List.Lex (· < ·) (midpointK a (some bs)) bs ∧
    GoodDigits (midpointK a (some bs)) ∧ NoTrailZero (midpointK a (some bs)) ∧
    midpointK a (some bs) ≠ [] := by
  have h := midpointF_spec (keyFuel a (some bs)) a (some bs) hga hta
    (fun bs2 h2 => by injection h2 with h2; subst h2; exact ⟨hgb, htb, hne, hlex⟩)
    (le_refl _)
  exact ⟨h.1, h.2.1 bs rfl, h.2.2⟩

theorem midpointK_above {a : List Nat} (hga : GoodDigits a) (hta : NoTrailZero a) :
    List.Lex (· < ·) a (midpointK a none) ∧
    GoodDigits (midpointK a none) ∧ NoTrailZero (midpointK a none) ∧
    midpointK a none ≠ [] := by
  have h := midpointF_spec (keyFuel a none) a none hga hta
    (fun bs2 h2 => nomatch h2) (le_refl _)
  exact ⟨h.1, h.2.2⟩

theorem lexTrans {a b c : List Nat} (h1 : List.Lex (· < ·) a b)
    (h2 : List.Lex (· < ·) b c) : List.Lex (· < ·) a c :=
  lt_trans (show a < b from h1) (show b < c from h2)

/-- Repeated insertion between the latest generated key and the fixed upper
bound, at the string level (spec.md §8 "Ordering density"). -/
def genChain (a b : String) : Nat → String
  | 0 =>
    match generateKeyBetween (some a) (some b) with
    | .ok k => k
    | .error _ => ""
  | n + 1 =>
    match generateKeyBetween (some (genChain a b n)) (some b) with
    | .ok k => k
    | .error _ => ""

theorem generateKeyBetween_ok {a b : String} {ka kb : List Nat}
    (hpa : parseKey a = some ka) (hoka : okKey ka = true)
    (hpb : parseKey b = some kb) (hokb : okKey kb = true)
    (hlt : lexLt ka kb = true) :
    generateKeyBetween (some a) (some b) = .ok (keyString (midpointK ka (some kb))) := by
  simp only [generateKeyBetween, hpa, hpb, hoka, hokb, Bool.and_self, if_true, hlt]

theorem genChain_spec {a b : String} {ka kb : List Nat}
    (hpa : parseKey a = some ka) (hoka : okKey ka = true)
    (hpb : parseKey b = some kb) (hokb : okKey kb = true)
    (hlex : List.Lex (· < ·) ka kb) :
    ∀ n, List.Lex (· < ·) ka (keyChain ka kb n) ∧
      List.Lex (· < ·) (keyChain ka kb n) kb ∧
      GoodDigits (keyChain ka kb n) ∧ NoTrailZero (keyChain ka kb n) ∧
      keyChain ka kb n ≠ [] ∧
      genChain a b n = keyString (keyChain ka kb n) := by
  have hga := parseKey_good hpa
  have hta := okKey_noTrail hoka
  have hgb := parseKey_good hpb
  have htb := okKey_noTrail hokb
  have hneb := okKey_ne hokb
  intro n
  induction n with
  | zero =>
    have h := midpointK_between hga hta hgb htb hneb hlex
    refine ⟨h.1, h.2.1, h.2.2.1, h.2.2.2.1, h.2.2.2.2, ?_⟩
    show (match generateKeyBetween (some a) (some b) with
      | .ok k => k
      | .error _ => "") = _
    rw [generateKeyBetween_ok hpa hoka hpb hokb ((lexLt_iff ka kb).mpr hlex)]
    rfl
  | succ n ih =>
    obtain ⟨iha, ihb, ihg, iht, ihne, ihs⟩ := ih
    have h := midpointK_between ihg iht hgb htb hneb ihb
    refine ⟨lexTrans iha h.1, h.2.1, h.2.2.1, h.2.2.2.1, h.2.2.2.2, ?_⟩
    show (match generateKeyBetween (some (genChain a b n)) (some b) with
      | .ok k => k
      | .error _ => "") = _
    rw [ihs, generateKeyBetween_ok (parseKey_keyString ihg) (okKey_intro ihne iht) hpb hokb
      ((lexLt_iff _ kb).mpr ihb)]
    rfl

theorem keyChain_step {a b : String} {ka kb : List Nat}
    (hpa : parseKey a = some ka) (hoka : okKey ka = true)
    (hpb : parseKey b = some kb) (hokb : okKey kb = true)
    (hlex : List.Lex (· < ·) ka kb) :
    ∀ n, List.Lex (· < ·) (keyChain ka kb n) (keyChain ka kb (n + 1)) := by
  intro n
  obtain ⟨_, ihb, ihg, iht, _, _⟩ := genChain_spec hpa hoka hpb hokb hlex n
  exact (midpointK_between ihg iht (parseKey_good hpb) (okKey_noTrail hokb)
    (okKey_ne hokb) ihb).1

theorem keyChain_mono {a b : String} {ka kb : List Nat}
    (hpa : parseKey a = some ka) (hoka : okKey ka = true)
    (hpb : parseKey b = some kb) (hokb : okKey kb = true)
    (hlex : List.Lex (· < ·) ka kb) :
    ∀ n m, n < m → List.Lex (· < ·) (keyChain ka kb n) (keyChain ka kb m) := by
  have hmono : StrictMono (fun n => keyChain ka kb n) :=
    strictMono_nat_of_lt_succ (fun n => keyChain_step hpa hoka hpb hokb hlex n)
  intro n m hnm
  exact hmono hnm

/-! ## Structural helpers for the claim theorems -/

/-- `SubBlock s b`: the block `s` occurs in the tree rooted at `b`. -/
inductive SubBlock : BlockSnapshot → BlockSnapshot → Prop where
  | refl (b : BlockSnapshot) : SubBlock b b
  | child {s c b : BlockSnapshot} : c ∈ b.children → SubBlock s c → SubBlock s b

/-- Erase every id in a snapshot tree (fuelled). -/
def stripIdsF : Nat → BlockSnapshot → BlockSnapshot
  | 0, b => b
  | f + 1, .mk _ fl pr ch => .mk "" fl pr (ch.map (stripIdsF f))

/-- Drop the named props everywhere in a snapshot tree (fuelled). -/
def dropPropsF (names : List String) : Nat → BlockSnapshot → BlockSnapshot
  | 0, b => b
  | f + 1, .mk i fl pr ch =>
    .mk i fl (pr.filter (fun kv => !(names.contains kv.1))) (ch.map (dropPropsF names f))

/-- The well-formedness of the `order` prop of an imported list block:
present, an integer exactly for numbered items and null otherwise. -/
def OrderOK (s : BlockSnapshot) : Prop :=
  s.flavour = "affine:list" →
    ∃ j, alookup "order" s.props = some (.v j) ∧
      (j = JVal.null ∨ ∃ n : Int, j = .i n) ∧
      (blockType "" s = "numbered" → ∃ n : Int, j = .i n) ∧
      (blockType "" s = "bulleted" ∨ blockType "" s = "todo" → j = JVal.null)

theorem listItemProps_order (ord : JVal) (k : MLKind) (d : List DeltaInsert) :
    alookup "order" (listItemProps ord k d) = some (.v ord) := rfl

theorem orderPropOf_shape (prev : Option Nat) (k : MLKind) :
    orderPropOf prev k = JVal.null ∨ ∃ n : Int, orderPropOf prev k = .i n := by
  cases k with
  | bulleted => exact Or.inl rfl
  | todo c => exact Or.inl rfl
  | numbered n =>
    cases prev with
    | none => exact Or.inr ⟨Int.ofNat n, rfl⟩
    | some p => exact Or.inr ⟨Int.ofNat (p + 1), rfl⟩

theorem buildLevel_orderOK :
    ∀ f cfg lvl prev items, ∀ b ∈ (buildLevel cfg f lvl prev items).1,
      ∀ s, SubBlock s b → OrderOK s := by
  intro f
  induction f with
  | zero =>
    intro cfg lvl prev items b hb
    simp [buildLevel] at hb
  | succ f ih =>
    intro cfg lvl prev items b hb
    cases items with
    | nil => simp [buildLevel] at hb
    | cons it rest =>
      simp only [buildLevel] at hb
      by_cases hlv : it.level < lvl
      · rw [if_pos hlv] at hb
        simp at hb
      · rw [if_neg hlv] at hb
        simp only [List.mem_cons] at hb
        rcases hb with hb | hb
        · subst hb
          intro s hs
          cases hs with
          | refl =>
            intro _
            refine ⟨orderPropOf prev it.kind, listItemProps_order _ _ _, orderPropOf_shape prev it.kind, ?_, ?_⟩
            · intro hnum
              cases hk : it.kind with
              | numbered n =>
                cases prev with
                | none => exact ⟨Int.ofNat n, by simp [orderPropOf, hk]⟩
                | some p => exact ⟨Int.ofNat (p + 1), by simp [orderPropOf, hk]⟩
              | bulleted =>
                rw [hk] at hnum
                simp [blockType, BlockSnapshot.props, listItemProps, alookup] at hnum
              | todo c =>
                rw [hk] at hnum
                simp [blockType, BlockSnapshot.props, listItemProps, alookup] at hnum
            · intro hbt
              cases hk : it.kind with
              | numbered n =>
                rw [hk] at hbt
                rcases hbt with hbt | hbt <;>
                  simp [blockType, BlockSnapshot.props, listItemProps, alookup] at hbt
              | bulleted => simp [orderPropOf, hk]
              | todo c => simp [orderPropOf, hk]
          | child hc hsub =>
            exact ih cfg (lvl + 1) none rest _ (by simpa using hc) s hsub
        · exact ih cfg lvl (assignedOrder prev it.kind) _ b hb

theorem assignIds_sub : ∀ f : Nat,
    (∀ n b s, SubBlock s (assignIds f n b).1 →
      ∃ s0, SubBlock s0 b ∧ s.flavour = s0.flavour ∧ s.props = s0.props) ∧
    (∀ n bs c s, c ∈ (assignIdsList f n bs).1 → SubBlock s c →
      ∃ c0, c0 ∈ bs ∧ ∃ s0, SubBlock s0 c0 ∧ s.flavour = s0.flavour ∧ s.props = s0.props) := by
  intro f
  induction f with
  | zero =>
    constructor
    · intro n b s hs
      exact ⟨s, hs, rfl, rfl⟩
    · intro n bs c s hc hs
      exact ⟨c, hc, s, hs, rfl, rfl⟩
  | succ f ih =>
    obtain ⟨ihA, ihB⟩ := ih
    constructor
    · intro n b s hs
      cases b with
      | mk i fl pr ch =>
        simp only [assignIds] at hs
        cases hs with
        | refl =>
          exact ⟨.mk i fl pr ch, SubBlock.refl _, rfl, rfl⟩
        | child hc hsub =>
          obtain ⟨c0, hc0, s0, hs0, hfl, hpr⟩ := ihB (n + 1) ch _ s (by simpa using hc) hsub
          exact ⟨s0, SubBlock.child (by simpa using hc0) hs0, hfl, hpr⟩
    · intro n bs c s hc hs
      cases bs with
      | nil => simp [assignIdsList] at hc
      | cons b rest =>
        simp only [assignIdsList, List.mem_cons] at hc
        rcases hc with hc | hc
        · subst hc
          obtain ⟨s0, hs0, hfl, hpr⟩ := ihA n b s hs
          exact ⟨b, List.mem_cons_self b rest, s0, hs0, hfl, hpr⟩
        · obtain ⟨c0, hc0, rest2⟩ := ihB _ rest c s hc hs
          exact ⟨c0, List.mem_cons_of_mem b hc0, rest2⟩

theorem orderOK_transfer {s s0 : BlockSnapshot} (hfl : s.flavour = s0.flavour)
    (hpr : s.props = s0.props) (h : OrderOK s0) : OrderOK s := by
  intro hlist
  obtain ⟨j, hj, hsh, hnum, hbt⟩ := h (hfl ▸ hlist)
  exact ⟨j, hpr ▸ hj, hsh, by simpa [blockType, hpr] using hnum, by simpa [blockType, hpr] using hbt⟩

theorem mblockToBlocks_orderOK (cfg : Option String) (mb : MBlock) :
    ∀ c ∈ mblockToBlocks cfg mb, ∀ s, SubBlock s c → OrderOK s := by
  intro c hc s hs
  cases mb with
  | para content =>
    simp only [mblockToBlocks, List.mem_singleton] at hc
    subst hc
    cases hs with
    | refl => intro h; simp [BlockSnapshot.flavour] at h
    | child hcc hsub => simp [BlockSnapshot.children] at hcc
  | codeB lang content =>
    simp only [mblockToBlocks, List.mem_singleton] at hc
    subst hc
    cases hs with
    | refl => intro h; simp [BlockSnapshot.flavour] at h
    | child hcc hsub => simp [BlockSnapshot.children] at hcc
  | listB items =>
    exact buildLevel_orderOK (items.length + 1) cfg 0 none items c hc s hs

/-- Every `affine:list` block anywhere in a `toBlockSnapshot` result carries
a well-shaped explicit `order` prop. -/
theorem toBlockSnapshot_orderOK (cfg : Option String) (file : String) :
    ∀ s, SubBlock s (toBlockSnapshot cfg file) → OrderOK s := by
  intro s hs
  obtain ⟨s0, hs0, hfl, hpr⟩ := (assignIds_sub 1000).1 0 _ s hs
  refine orderOK_transfer hfl hpr ?_
  cases hs0 with
  | refl => intro h; simp [BlockSnapshot.flavour] at h
  | child hc hsub =>
    simp only [BlockSnapshot.children] at hc
    rw [List.mem_flatMap] at hc
    obtain ⟨mb, _, hcmb⟩ := hc
    exact mblockToBlocks_orderOK cfg mb _ hcmb s0 hsub

/-- Input of the `snapshot to markdown / todo list` adapter test. -/
def sTodo : BlockSnapshot :=
  pageBlock "block:vu6SK6WJpW" []
    [surfaceBlock "block:Tk4gSPocAt",
     noteBlock "block:WfnS5ZDCJT"
       [listExp "block:imiLDMKSkx" "todo" false [tIns "aaa"]
          [listExp "block:kYliRIovvL" "todo" true [tIns "bbb"]
             [listExp "block:UyvxA_gqCJ" "todo" false [tIns "ccc"] []],
           listExp "block:-guNZRm5u1" "todo" true [tIns "ddd"] []],
        listExp "block:B9CaZzQ2CO" "todo" false [tIns "eee"] []]]

def mdTodo : String := "* [ ] aaa\n  * [x] bbb\n    * [ ] ccc\n  * [x] ddd\n* [ ] eee\n"

theorem check_todo_export : fromBlockSnapshot sTodo = mdTodo := rfl

/-- Import of a numbered list whose literal numbers are non-consecutive
inside one run: a compliant Markdown AST keeps only the start value, so the
second item is renumbered. -/
def iSeven : BlockSnapshot :=
  impNote
    [listImp "matchesReplaceMap[1]" "numbered" false (.i 3) [tIns "ccc"] [],
     listImp "matchesReplaceMap[2]" "numbered" false (.i 4) [tIns "ddd"] []]

theorem check_seven : toBlockSnapshot none "3. ccc\n7. ddd\n" = iSeven := rfl

theorem leadsWith_app : ∀ l m : List Char, leadsWith l (l ++ m) = true := by
  intro l m
  induction l with
  | nil => rfl
  | cons c cs ih => simp [leadsWith, ih]

theorem takeWhile_stop {p : Char → Bool} :
    ∀ l (x : Char) m, (∀ c ∈ l, p c = true) → p x = false →
      ((l ++ x :: m).takeWhile p = l ∧ (l ++ x :: m).dropWhile p = x :: m) := by
  intro l
  induction l with
  | nil =>
    intro x m _ hx
    constructor
    · simp [List.takeWhile_cons, hx]
    · simp [List.dropWhile_cons, hx]
  | cons c cs ih =>
    intro x m hl hx
    have hc := hl c (List.mem_cons_self c cs)
    have ihr := ih x m (fun d hd => hl d (List.mem_cons_of_mem c hd)) hx
    constructor
    · simp [List.takeWhile_cons, hc, ihr.1]
    · simp [List.dropWhile_cons, hc, ihr.2]

theorem takeWhile_all {p : Char → Bool} :
    ∀ l : List Char, (∀ c ∈ l, p c = true) →
      (l.takeWhile p = l ∧ l.dropWhile p = []) := by
  intro l
  induction l with
  | nil => intro _; exact ⟨rfl, rfl⟩
  | cons c cs ih =>
    intro hl
    have hc := hl c (List.mem_cons_self c cs)
    have ihr := ih (fun d hd => hl d (List.mem_cons_of_mem c hd))
    constructor
    · simp [List.takeWhile_cons, hc, ihr.1]
    · simp [List.dropWhile_cons, hc, ihr.2]

theorem linkToRuns_query (base : String) (txt pid q : List Char)
    (hp : ∀ c ∈ pid, c ≠ '?') :
    linkToRuns (some base) txt (base.data ++ '/' :: (pid ++ '?' :: q)) =
      [refRun (String.mk pid) (parseQuery q)] := by
  have hurl : base.data ++ '/' :: (pid ++ '?' :: q) =
      (base.data ++ ['/']) ++ (pid ++ '?' :: q) := by simp
  have hlen : base.data.length + 1 = (base.data ++ ['/']).length := by simp
  have hpb : ∀ c ∈ pid, (fun c => decide (c ≠ '?')) c = true := by
    intro c hc
    simpa using hp c hc
  have hqm : (fun c => decide (c ≠ '?')) '?' = false := by simp
  have hsplit := takeWhile_stop pid '?' q hpb hqm
  simp only [linkToRuns]
  rw [hurl, if_pos (leadsWith_app (base.data ++ ['/']) (pid ++ '?' :: q)), hlen,
    List.drop_left, hsplit.1, hsplit.2]
  rfl

theorem linkToRuns_noquery (base : String) (txt pid : List Char)
    (hp : ∀ c ∈ pid, c ≠ '?') :
    linkToRuns (some base) txt (base.data ++ '/' :: pid) =
      [refRun (String.mk pid) []] := by
  have hurl : base.data ++ '/' :: pid = (base.data ++ ['/']) ++ pid := by simp
  have hlen : base.data.length + 1 = (base.data ++ ['/']).length := by simp
  have hpb : ∀ c ∈ pid, (fun c => decide (c ≠ '?')) c = true := by
    intro c hc
    simpa using hp c hc
  have hsplit := takeWhile_all pid hpb
  simp only [linkToRuns]
  rw [hurl, if_pos (leadsWith_app (base.data ++ ['/']) pid), hlen,
    List.drop_left, hsplit.1, hsplit.2]
  rfl

/-! ## Claim theorems -/

/-- Projection used by the C5 counterexample: the `order` prop of the second
content block of an import result. -/
def secondOrder (b : BlockSnapshot) : Option PVal :=
  alookup "order" ((b.children.drop 1).headD (BlockSnapshot.mk "" "" [] [])).props

/-- Input of the `snapshot to markdown / paragraph` adapter test: nested
paragraphs aaa > (bbb, ccc > (ddd, eee, fff), ggg) followed by hhh (the
`fff` node keeps the test's text-before-type prop order; the exporter reads
props by name). -/
def sPara : BlockSnapshot :=
  pageBlock "block:vu6SK6WJpW" []
    [surfaceBlock "block:Tk4gSPocAt",
     noteBlock "block:WfnS5ZDCJT"
       [paraBlock "block:Bdn8Yvqcny" [tIns "aaa"]
          [paraBlock "block:72SMa5mdLy" [tIns "bbb"] [],
           paraBlock "block:f-Z6nRrGK_" [tIns "ccc"]
             [paraBlock "block:sP3bU52el7" [tIns "ddd"] [],
              paraBlock "block:X_HMxP4wxC" [tIns "eee"] [],
              BlockSnapshot.mk "block:iA34Rb-RvV" "affine:paragraph"
                [textProp [tIns "fff"], sProp "type" "text"] []],
           paraBlock "block:I0Fmz5Nv02" [tIns "ggg"] []],
        paraBlock "block:12lDwMD7ec" [tIns "hhh"] []]]

/-- The Markdown of the paragraph test: nested paragraphs become
`&#x20;`-indented sibling chunks. -/
def mdPara : String :=
  "aaa\n\n&#x20;   bbb\n\n&#x20;   ccc\n\n&#x20;       ddd\n\n&#x20;       eee\n\n&#x20;       fff\n\n&#x20;   ggg\n\nhhh\n"

/-- Expected output of the `markdown to snapshot / paragraph` adapter test:
eight flat top-level paragraphs whose deltas absorb the indentation (prop
order follows the importer's uniform type-before-text order; the unit tests
compare with the order-insensitive `toEqual`). -/
def iPara : BlockSnapshot :=
  impNote
    [impPara "matchesReplaceMap[1]" [tIns "aaa"],
     impPara "matchesReplaceMap[2]" [tIns "    bbb"],
     impPara "matchesReplaceMap[3]" [tIns "    ccc"],
     impPara "matchesReplaceMap[4]" [tIns "        ddd"],
     impPara "matchesReplaceMap[5]" [tIns "        eee"],
     impPara "matchesReplaceMap[6]" [tIns "        fff"],
     impPara "matchesReplaceMap[7]" [tIns "    ggg"],
     impPara "matchesReplaceMap[8]" [tIns "hhh"]]

theorem check_para_export : fromBlockSnapshot sPara = mdPara := rfl

theorem check_para_import : toBlockSnapshot none mdPara = iPara := rfl

/-- C1 counterexample: re-importing the export of the code-block snapshot is
not structurally equal to the original up to id renaming — the page/surface
wrappers are replaced by a fresh note root (and the code block gains a
`wrap` prop), so flavours and props are not all preserved. -/
theorem claim_C1_counterexample :
    stripIdsF 100 (toBlockSnapshot none (fromBlockSnapshot sCode)) ≠ stripIdsF 100 sCode := by
  intro h
  exact absurd (congrArg BlockSnapshot.flavour h) (by decide)

/-- C1 (amended): the round trip is faithful only instance-by-instance, not
as a universal law.  For the code-block and nested bulleted-list snapshots
of the adapter tests, `toBlockSnapshot (fromBlockSnapshot S)` returns the
snapshot recorded by the corresponding import test: a fresh `affine:note`
root instead of S's page/surface wrappers, whose content blocks equal S's
note content up to id renaming after dropping the importer-added default
props (`wrap` on code blocks, `order` on list blocks).  Beyond those two
instances the round trip is lossy even modulo these exceptions: the nested
paragraphs of the paragraph test export as `&#x20;`-indented sibling chunks
and re-import as eight flat top-level paragraphs whose deltas absorb the
indentation (`bbb` becomes `    bbb`), so nesting and deltas are not
preserved in general. -/
theorem claim_C1_roundtrip_amended :
    toBlockSnapshot none (fromBlockSnapshot sCode) = iCode ∧
    toBlockSnapshot none (fromBlockSnapshot sBullet) = iBullet ∧
    iCode.children.map (fun b => stripIdsF 100 (dropPropsF ["wrap", "order"] 100 b)) =
      (contentBlocks sCode).map (stripIdsF 100) ∧
    iBullet.children.map (fun b => stripIdsF 100 (dropPropsF ["wrap", "order"] 100 b)) =
      (contentBlocks sBullet).map (stripIdsF 100) ∧
    iCode.flavour = "affine:note" ∧ sCode.flavour = "affine:page" ∧
    fromBlockSnapshot sPara = mdPara ∧
    toBlockSnapshot none (fromBlockSnapshot sPara) = iPara ∧
    (contentBlocks sPara).length = 2 ∧ iPara.children.length = 8 ∧
    blockDelta (((contentBlocks sPara).headD (BlockSnapshot.mk "" "" [] [])).children.headD
      (BlockSnapshot.mk "" "" [] [])) = [tIns "bbb"] ∧
    blockDelta ((iPara.children.drop 1).headD (BlockSnapshot.mk "" "" [] [])) =
      [tIns "    bbb"] ∧
    [tIns "bbb"] ≠ [tIns "    bbb"] := by
  refine ⟨rfl, rfl, rfl, rfl, rfl, rfl, rfl, rfl, rfl, rfl, rfl, rfl, ?_⟩
  intro h
  injection h with h
  injection h with h
  exact absurd (congrArg String.data h) (by decide)

/-- C2 counterexample: in the synced-doc chain A embeds B embeds C of the
adapter test, the export of A does not contain the rendered Markdown of C —
the body paragraph of the deepest doc is absent (only its title appears),
refuting expansion "recursively at every nesting depth". -/
theorem claim_C2_counterexample :
    fromDocSnapshot syncedDocEnv testDoc = testDocMd ∧
    containsSub "Hello, This is deepest doc.".data testDocMd.data = false :=
  ⟨rfl, rfl⟩

/-- C2 (amended): a synced-doc embed in the exported document is replaced by
the full rendered Markdown of the document it references, but the expansion
is one level deep: a synced-doc embed nested inside an expanded document
renders only the target document's title. -/
theorem claim_C2_synced_doc_amended :
    fromDocSnapshot syncedDocEnv testDoc = testDocMd ∧
    containsSub syncedDocMd.data testDocMd.data = true ∧
    containsSub "Deepest Doc".data testDocMd.data = true :=
  ⟨rfl, rfl, rfl⟩

/-- C3: the price sentence imports as exactly one paragraph whose delta is a
single plain run with no latex attribute; `$E=mc^2$` and `\(E=mc^2\)` in the
same importer produce a latex-attributed atomic run; and a dollar sign
immediately followed by a digit (or by a space and a digit) never opens an
inline-latex span. -/
theorem claim_C3_price_not_latex :
    toBlockSnapshot none mdPrice = iPrice ∧
    toBlockSnapshot none "inline $E=mc^2$ latex\n" = iInlineLatex ∧
    toBlockSnapshot none "inline \\(E=mc^2\\) latex\n" = iInlineLatex ∧
    (∀ (d : Char) (rest : List Char), d.isDigit = true →
      dollarOpens (d :: rest) = false ∧ dollarOpens (' ' :: d :: rest) = false) := by
  refine ⟨rfl, rfl, rfl, ?_⟩
  intro d rest hd
  constructor
  · simp [dollarOpens, hd]
  · simp [dollarOpens, hd]

theorem claim_C3_witness :
    dollarOpens ('9' :: []) = false ∧ dollarOpens (' ' :: '9' :: []) = false :=
  claim_C3_price_not_latex.2.2.2 '9' [] (by decide)

/-- C4: exporting the paragraph `aaa` followed by three atomic footnote runs
yields `aaa[^1][^2][^3]` with one JSON definition line per footnote, the URL
field percent-encoded. -/
theorem claim_C4_footnote_export : fromBlockSnapshot sFootnote = mdFootnote := rfl

/-- C5 counterexample: importing `3. ccc\n7. ddd\n` records order 4, not the
literal 7, for the second item — a compliant Markdown AST keeps only the
start value of an ordered list and renumbers the following items, so the
claim "records the item's literal list number without renumbering" fails
inside a single list run. -/
theorem claim_C5_counterexample :
    toBlockSnapshot none "3. ccc\n7. ddd\n" = iSeven ∧
    secondOrder (toBlockSnapshot none "3. ccc\n7. ddd\n") = some (.v (.i 4)) ∧
    some (PVal.v (JVal.i 4)) ≠ some (PVal.v (JVal.i 7)) := by
  refine ⟨rfl, rfl, ?_⟩
  intro h
  injection h with h
  injection h with h
  injection h with h
  exact absurd h (by decide)

/-- C5 (amended): the start value of each numbered list run is captured
verbatim in the first item's `order` prop and subsequent items of the run
are numbered consecutively from it; importing `1. aaa`, an interrupting
paragraph, then `3. ccc` / `4. ddd` yields list blocks with order 1, 3
and 4. -/
theorem claim_C5_numbered_order_amended :
    toBlockSnapshot none mdNumbered = iNumbered ∧
    (∀ n : Nat, orderPropOf none (.numbered n) = .i (Int.ofNat n)) ∧
    (∀ p n : Nat, orderPropOf (some p) (.numbered n) = .i (Int.ofNat (p + 1))) :=
  ⟨rfl, fun _ => rfl, fun _ _ => rfl⟩

/-- C6 counterexample: `"1" < "10"` byte-wise, yet `generateKeyBetween`
fails (with an invalid-key error, not a key): `"10"` ends in the zero digit
and no base-62 key exists strictly between `"1"` and `"10"`, so the claim
quantified over all strings is false. -/
theorem claim_C6_counterexample :
    "1" < "10" ∧ generateKeyBetween (some "1") (some "10") = .error .invalidKey :=
  ⟨by rw [String.lt_iff_toList_lt]; decide, rfl⟩

/-- C6 (amended): for all valid fractional keys (base-62 strings, nonempty,
not ending in the `'0'` digit): `generateKeyBetween(a,b)` returns a valid
key strictly between them when `a < b` and fails with `InvalidOrderError`
when `a ≥ b`; with `a` null it returns a valid key below `b`, with `b` null
one above `a`; and repeated insertion between the latest key and the same
upper bound yields strictly increasing, pairwise distinct keys inside
`(a, b)`, renumbering nothing. -/
theorem claim_C6_generate_key_between_amended :
    (∀ (a b : String) (ka kb : List Nat),
      parseKey a = some ka → okKey ka = true →
      parseKey b = some kb → okKey kb = true → a < b →
      generateKeyBetween (some a) (some b) = .ok (keyString (midpointK ka (some kb))) ∧
      a < keyString (midpointK ka (some kb)) ∧ keyString (midpointK ka (some kb)) < b ∧
      parseKey (keyString (midpointK ka (some kb))) = some (midpointK ka (some kb)) ∧
      okKey (midpointK ka (some kb)) = true) ∧
    (∀ (a b : String) (ka kb : List Nat),
      parseKey a = some ka → okKey ka = true →
      parseKey b = some kb → okKey kb = true → ¬ a < b →
      generateKeyBetween (some a) (some b) = .error .invalidOrder) ∧
    (∀ (b : String) (kb : List Nat),
      parseKey b = some kb → okKey kb = true →
      generateKeyBetween none (some b) = .ok (keyString (midpointK [] (some kb))) ∧
      keyString (midpointK [] (some kb)) < b ∧ okKey (midpointK [] (some kb)) = true) ∧
    (∀ (a : String) (ka : List Nat),
      parseKey a = some ka → okKey ka = true →
      generateKeyBetween (some a) none = .ok (keyString (midpointK ka none)) ∧
      a < keyString (midpointK ka none) ∧ okKey (midpointK ka none) = true) ∧
    (∀ (a b : String) (ka kb : List Nat),
      parseKey a = some ka → okKey ka = true →
      parseKey b = some kb → okKey kb = true → a < b →
      ∀ n m : Nat, n < m →
        a < genChain a b n ∧ genChain a b n < genChain a b m ∧ genChain a b m < b) := by
  refine ⟨?_, ?_, ?_, ?_, ?_⟩
  · intro a b ka kb hpa hoka hpb hokb hab
    have hga := parseKey_good hpa
    have hgb := parseKey_good hpb
    have hlex : List.Lex (· < ·) ka kb := by
      have hiff := keyString_lt_iff hga hgb
      rw [keyString_parseKey hpa, keyString_parseKey hpb] at hiff
      exact hiff.mp hab
    obtain ⟨m1, m2, m3, m4, m5⟩ := midpointK_between hga (okKey_noTrail hoka) hgb
      (okKey_noTrail hokb) (okKey_ne hokb) hlex
    refine ⟨generateKeyBetween_ok hpa hoka hpb hokb ((lexLt_iff _ _).mpr hlex), ?_, ?_,
      parseKey_keyString m3, okKey_intro m5 m4⟩
    · rw [← keyString_parseKey hpa]
      exact (keyString_lt_iff hga m3).mpr m1
    · rw [← keyString_parseKey hpb]
      exact (keyString_lt_iff m3 hgb).mpr m2
  · intro a b ka kb hpa hoka hpb hokb hnab
    have hga := parseKey_good hpa
    have hgb := parseKey_good hpb
    have hnlt : lexLt ka kb = false := by
      cases h : lexLt ka kb
      · rfl
      · exfalso
        apply hnab
        have hlex := (lexLt_iff ka kb).mp h
        have hlt := (keyString_lt_iff hga hgb).mpr hlex
        rwa [keyString_parseKey hpa, keyString_parseKey hpb] at hlt
    simp [generateKeyBetween, hpa, hpb, hoka, hokb, hnlt]
  · intro b kb hpb hokb
    have hgb := parseKey_good hpb
    have hlexn : List.Lex (· < ·) [] kb := by
      cases kb with
      | nil => exact absurd rfl (okKey_ne hokb)
      | cons x xs => exact List.Lex.nil
    obtain ⟨_, m2, m3, m4, m5⟩ := midpointK_between (fun d hd => absurd hd (List.not_mem_nil d))
      noTrailZero_nil hgb (okKey_noTrail hokb) (okKey_ne hokb) hlexn
    refine ⟨by simp [generateKeyBetween, hpb, hokb], ?_, okKey_intro m5 m4⟩
    rw [← keyString_parseKey hpb]
    exact (keyString_lt_iff m3 hgb).mpr m2
  · intro a ka hpa hoka
    have hga := parseKey_good hpa
    obtain ⟨m1, m3, m4, m5⟩ := midpointK_above hga (okKey_noTrail hoka)
    refine ⟨by simp [generateKeyBetween, hpa, hoka], ?_, okKey_intro m5 m4⟩
    rw [← keyString_parseKey hpa]
    exact (keyString_lt_iff hga m3).mpr m1
  · intro a b ka kb hpa hoka hpb hokb hab n m hnm
    have hga := parseKey_good hpa
    have hgb := parseKey_good hpb
    have hlex : List.Lex (· < ·) ka kb := by
      have hiff := keyString_lt_iff hga hgb
      rw [keyString_parseKey hpa, keyString_parseKey hpb] at hiff
      exact hiff.mp hab
    obtain ⟨na, _, ng, _, _, ns⟩ := genChain_spec hpa hoka hpb hokb hlex n
    obtain ⟨_, mb2, mg, _, _, ms⟩ := genChain_spec hpa hoka hpb hokb hlex m
    have hmono := keyChain_mono hpa hoka hpb hokb hlex n m hnm
    refine ⟨?_, ?_, ?_⟩
    · rw [ns, ← keyString_parseKey hpa]
      exact (keyString_lt_iff hga ng).mpr na
    · rw [ns, ms]
      exact (keyString_lt_iff ng mg).mpr hmono
    · rw [ms, ← keyString_parseKey hpb]
      exact (keyString_lt_iff mg hgb).mpr mb2

theorem claim_C6_witness :
    generateKeyBetween (some "a") (some "b") = .ok (keyString (midpointK [36] (some [37]))) ∧
    "a" < keyString (midpointK [36] (some [37])) ∧
    keyString (midpointK [36] (some [37])) < "b" ∧
    parseKey (keyString (midpointK [36] (some [37]))) = some (midpointK [36] (some [37])) ∧
    okKey (midpointK [36] (some [37])) = true :=
  claim_C6_generate_key_between_amended.1 "a" "b" [36] [37] rfl rfl rfl rfl
    (by rw [String.lt_iff_toList_lt]; decide)

/-- C7: exporting the note with one python code block yields exactly the
fenced Markdown recorded by the adapter test. -/
theorem claim_C7_code_export : fromBlockSnapshot sCode = mdCode := rfl

/-- C8: exporting the three-level nested bulleted list yields exactly the
`*`-marked, two-spaces-per-level Markdown recorded by the adapter test. -/
theorem claim_C8_bulleted_export : fromBlockSnapshot sBullet = mdBullet := rfl

/-- C9: every `affine:list` block produced by Markdown import carries an
explicit well-shaped `order` prop (an integer exactly for numbered items,
null for bulleted and todo items), as the concrete imports show; export
inputs carry no `order` prop at all on their list blocks yet export
succeeds, so import is not prop-for-prop inverse to export. -/
theorem claim_C9_import_order_prop :
    (∀ (cfg : Option String) (file : String) (s : BlockSnapshot),
      SubBlock s (toBlockSnapshot cfg file) → OrderOK s) ∧
    toBlockSnapshot none mdBulletLoose = iBullet ∧
    toBlockSnapshot none mdTodoLoose = iTodo ∧
    toBlockSnapshot none mdNumbered = iNumbered ∧
    (∀ id ty c runs ch, alookup "order" (listExp id ty c runs ch).props = none) ∧
    (∀ id ty c o runs ch, alookup "order" (listImp id ty c o runs ch).props = some (.v o)) ∧
    fromBlockSnapshot sBullet = mdBullet ∧ fromBlockSnapshot sTodo = mdTodo :=
  ⟨toBlockSnapshot_orderOK, rfl, rfl, rfl, fun _ _ _ _ _ => rfl, fun _ _ _ _ _ _ => rfl,
   rfl, rfl⟩

theorem claim_C9_witness :
    OrderOK (listImp "matchesReplaceMap[1]" "numbered" false (.i 1) [tIns "aaa"] []) :=
  claim_C9_import_order_prop.1 none mdNumbered _
    (SubBlock.child (List.mem_cons_self _ _) (SubBlock.refl _))

/-- C10: with `docLinkBaseUrl` configured, importing the reference test
Markdown produces atomic LinkedPage reference runs (a standalone link
becomes a paragraph whose delta is only the reference run); and in general
a link whose URL is `{base}/{pageId}?{query}` (or with no query) converts
to a reference run with the page id from the path and params parsed from
the query string (the empty object without a query). -/
theorem claim_C10_reference_import :
    toBlockSnapshot (some "https://example.com") mdRef = iRef ∧
    (∀ (base : String) (txt pid q : List Char), (∀ c ∈ pid, c ≠ '?') →
      linkToRuns (some base) txt (base.data ++ '/' :: (pid ++ '?' :: q)) =
        [refRun (String.mk pid) (parseQuery q)]) ∧
    (∀ (base : String) (txt pid : List Char), (∀ c ∈ pid, c ≠ '?') →
      linkToRuns (some base) txt (base.data ++ '/' :: pid) = [refRun (String.mk pid) []]) :=
  ⟨rfl, linkToRuns_query, linkToRuns_noquery⟩

theorem claim_C10_witness :
    linkToRuns (some "https://example.com") "t".data
      ("https://example.com".data ++ '/' :: "deadbeef".data) =
      [refRun (String.mk "deadbeef".data) []] :=
  claim_C10_reference_import.2.2 "https://example.com" "t".data "deadbeef".data (by decide)
